import Mathlib

/-!
Hamburger configurator: ingredient / dish / hamburger model.

Shallow embedding of `src/scripts/main.js`.

* JavaScript objects are mutated in place; here every method takes the object
  state and returns the new state. A dish holds its ingredients by value, which
  describes a dish whose `Ingredient` objects no other dish holds, as is the case for
  every hamburger (each ingredient is created by the call that adds it).
* JavaScript numbers are modelled by `Int` (prices, calories, quantities and the
  numeric value read from an `<input>`); the hamburger catalogs hold small integers.
* The section "Object-level model of `Dish`" gives `Dish` a second time, with
  ingredients held by reference and arithmetic rounded to doubles; the statement on
  the totals of an arbitrary dish is made there.
* `Array.prototype.findIndex` returns `-1` when nothing matches; here
  `findIndex` returns `none` in that case and `some position` otherwise.
* `Hamburger`, `BigHamburger` and `SmallHamburger` add no fields to `Dish`, so the
  state of a hamburger is a `Dish`.
* JavaScript compares strings by UTF-16 code units; `jsLt` does the same on the code
  units of a Lean string. `Array.prototype.sort` is the stable sort by the comparator.
* `getMarkup` builds an HTML string; here it is represented by the state of the dish
  after the call, the list of types used and, per type, the ingredients rendered.
-/

namespace Burger

/-! ## Ingredient -/

/-- State of an `Ingredient` object (`main.js`, lines 6-18). -/
structure Ingredient where
  type : String
  name : String
  basePrice : Int
  baseCalories : Int
  quantity : Int
deriving DecidableEq, Repr

namespace Ingredient

/-- The constructor: the class field `quantity = 1` and the four assignments. -/
def new (type name : String) (basePrice baseCalories : Int) : Ingredient :=
  { type := type, name := name, basePrice := basePrice,
    baseCalories := baseCalories, quantity := 1 }

/-- Method `add()`: `this.quantity++`. -/
def add (i : Ingredient) : Ingredient :=
  { i with quantity := i.quantity + 1 }

/-- Method `reduce()`: `if (this.quantity > 1) this.quantity--`. -/
def reduce (i : Ingredient) : Ingredient :=
  if i.quantity > 1 then { i with quantity := i.quantity - 1 } else i

/-- Method `calcTotalPrice()`. -/
def calcTotalPrice (i : Ingredient) : Int :=
  i.basePrice * i.quantity

/-- Method `calcTotalCalories()`. -/
def calcTotalCalories (i : Ingredient) : Int :=
  i.baseCalories * i.quantity

end Ingredient

/-! ## Array helpers -/

/-- `Array.prototype.findIndex`: position of the first element satisfying `p`;
`none` stands for the result `-1`. -/
def findIndex {α : Type} (p : α → Bool) : List α → Option Nat
  | [] => none
  | x :: xs => if p x then some 0 else (findIndex p xs).map (fun n => n + 1)

/-- In-place update of the element at a position (`arr[position].m()`). -/
def modifyAt {α : Type} (f : α → α) : Nat → List α → List α
  | _, [] => []
  | 0, x :: xs => f x :: xs
  | n + 1, x :: xs => x :: modifyAt f n xs

/-! ## Dish -/

/-- State of a `Dish` object (`main.js`, lines 71-78). -/
structure Dish where
  name : String
  ingredients : List Ingredient
  price : Int
  calories : Int
deriving DecidableEq, Repr

namespace Dish

/-- Method `calcPrice()`: `reduce` from `0` adding `calcTotalPrice()`. -/
def calcPrice (d : Dish) : Dish :=
  { d with
    price := d.ingredients.foldl
      (fun totalPrice ingredient => totalPrice + ingredient.calcTotalPrice) 0 }

/-- Method `calcCalories()`: `reduce` from `0` adding `calcTotalCalories()`. -/
def calcCalories (d : Dish) : Dish :=
  { d with
    calories := d.ingredients.foldl
      (fun totalCalories ingredient => totalCalories + ingredient.calcTotalCalories) 0 }

/-- Method `addIngredient(ingredient)` (lines 84-97). -/
def addIngredient (d : Dish) (ingredient : Ingredient) : Dish :=
  match findIndex (fun el => el.name == ingredient.name) d.ingredients with
  | none =>
    calcCalories (calcPrice { d with ingredients := d.ingredients ++ [ingredient] })
  | some position =>
    calcCalories (calcPrice { d with ingredients := modifyAt Ingredient.add position d.ingredients })

/-- Method `removeIngredient(ingredient)` (lines 103-110); the argument is a name. -/
def removeIngredient (d : Dish) (ingredient : String) : Dish :=
  match findIndex (fun el => el.name == ingredient) d.ingredients with
  | some position =>
    calcCalories (calcPrice { d with ingredients := d.ingredients.eraseIdx position })
  | none => d

/-- Method `reduceIngredient(ingredient)` (lines 116-123); the argument is a name. -/
def reduceIngredient (d : Dish) (ingredient : String) : Dish :=
  match findIndex (fun el => el.name == ingredient) d.ingredients with
  | some position =>
    calcCalories (calcPrice
      { d with ingredients := modifyAt Ingredient.reduce position d.ingredients })
  | none => d

/-- The state given by the class fields before the constructor body runs. -/
def empty (name : String) : Dish :=
  { name := name, ingredients := [], price := 0, calories := 0 }

/-- The constructor `new Dish(name, ...ingredients)` (lines 72-78). -/
def new (name : String) (ingredients : List Ingredient) : Dish :=
  ingredients.foldl addIngredient (empty name)

end Dish

/-! ## Hamburger -/

namespace Hamburger

/-- Method `addStuffing(stuffing)` (lines 213-228). -/
def addStuffing (h : Dish) (stuffing : String) : Dish :=
  match stuffing with
  | "сыр" => h.addIngredient (Ingredient.new "Начинка" "сыр" 10 20)
  | "салат" => h.addIngredient (Ingredient.new "Начинка" "салат" 20 5)
  | "картофель" => h.addIngredient (Ingredient.new "Начинка" "картофель" 15 10)
  | _ => h.addIngredient (Ingredient.new "Начинка" "сыр" 10 20)

/-- The constructor `new Hamburger(name, stuffing)` (lines 203-206). -/
def new (name : String) (stuffing : String) : Dish :=
  addStuffing (Dish.new name []) stuffing

/-- Method `changeStuffing(stuffing)` (lines 235-241). -/
def changeStuffing (h : Dish) (stuffing : String) : Dish :=
  match findIndex (fun el => el.type == "Начинка") h.ingredients with
  | some position =>
    match h.ingredients[position]? with
    | some el => addStuffing (h.removeIngredient el.name) stuffing
    | none => h
  | none => h

/-- Method `addAdditives(additives)` (lines 248-260). -/
def addAdditives (h : Dish) (additives : String) : Dish :=
  match additives with
  | "приправа" => h.addIngredient (Ingredient.new "Добавка" "приправа" 15 0)
  | "майонез" => h.addIngredient (Ingredient.new "Добавка" "майонез" 20 5)
  | _ => h.addIngredient (Ingredient.new "Добавка" "приправа" 15 0)

/-- Method `removeAdditives(additives)` (lines 267-274). -/
def removeAdditives (h : Dish) (additives : String) : Dish :=
  match findIndex (fun el => el.name == additives && el.type == "Добавка") h.ingredients with
  | some _ => h.removeIngredient additives
  | none => h

/-- Method `reduceAdditives(additives)` (lines 281-288). -/
def reduceAdditives (h : Dish) (additives : String) : Dish :=
  match findIndex (fun el => el.name == additives && el.type == "Добавка") h.ingredients with
  | some _ => h.reduceIngredient additives
  | none => h

/-- Method `getAdditivesQuantity(additive)` (lines 295-303). -/
def getAdditivesQuantity (h : Dish) (additive : String) : Int :=
  match findIndex (fun el => el.name == additive && el.type == "Добавка") h.ingredients with
  | some position =>
    match h.ingredients[position]? with
    | some el => el.quantity
    | none => 0
  | none => 0

end Hamburger

/-- The constructor `new BigHamburger(stuffing)` (lines 309-316). -/
def BigHamburger (stuffing : String) : Dish :=
  (Hamburger.new "Большой гамбургер" stuffing).addIngredient
    (Ingredient.new "Основа" "большая булка и котлета" 100 40)

/-- The constructor `new SmallHamburger(stuffing)` (lines 321-328). -/
def SmallHamburger (stuffing : String) : Dish :=
  (Hamburger.new "Маленький гамбургер" stuffing).addIngredient
    (Ingredient.new "Основа" "маленькая булка и котлета" 50 20)

/-! ## Additive reconciliation (`getAdditives`, lines 372-388) -/

/-- What `getAdditives` reads from one `<input name='additive'>` element: its `id`
and the number `+el.value`. -/
structure AdditiveInput where
  id : String
  value : Int
deriving DecidableEq, Repr

/-- A call issued by `getAdditives` on the hamburger. -/
inductive AdditiveCall where
  | addAdditives (additive : String)
  | removeAdditives (additive : String)
  | reduceAdditives (additive : String)
deriving DecidableEq, Repr

/-- Performing one call on the hamburger. -/
def AdditiveCall.run (h : Dish) : AdditiveCall → Dish
  | .addAdditives a => Hamburger.addAdditives h a
  | .removeAdditives a => Hamburger.removeAdditives h a
  | .reduceAdditives a => Hamburger.reduceAdditives h a

/-- Line 374: `el.id === "seasoning" ? "приправа" : "майонез"`. -/
def additiveOf (el : AdditiveInput) : String :=
  if el.id = "seasoning" then "приправа" else "майонез"

/-- The calls the body of the `forEach` (lines 374-386) issues for one element, in
order. `number` is computed once, before the branch, so both loop bounds are fixed
by the state on entry: the first loop runs `number` times, the second `-number`
times. -/
def getAdditivesCalls (h : Dish) (el : AdditiveInput) : List AdditiveCall :=
  let additive := additiveOf el
  let number := el.value - Hamburger.getAdditivesQuantity h additive
  if el.value = 0 then [AdditiveCall.removeAdditives additive]
  else if number > 0 then List.replicate number.toNat (AdditiveCall.addAdditives additive)
  else if number < 0 then List.replicate (-number).toNat (AdditiveCall.reduceAdditives additive)
  else []

/-- The body of the `forEach` for one element: the calls are performed in order. -/
def getAdditivesStep (h : Dish) (el : AdditiveInput) : Dish :=
  (getAdditivesCalls h el).foldl AdditiveCall.run h

/-- Function `getAdditives()`: `numberAdditives.forEach(...)`; the node list is a
parameter. -/
def getAdditives (h : Dish) (numberAdditives : List AdditiveInput) : Dish :=
  numberAdditives.foldl getAdditivesStep h

/-! ## Operation sequences -/

/-- A call of one of the three mutators of `Dish`. -/
inductive DishOp where
  | addIngredient (ingredient : Ingredient)
  | removeIngredient (name : String)
  | reduceIngredient (name : String)
deriving DecidableEq, Repr

/-- Performing one `Dish` call. -/
def DishOp.run (d : Dish) : DishOp → Dish
  | .addIngredient x => d.addIngredient x
  | .removeIngredient n => d.removeIngredient n
  | .reduceIngredient n => d.reduceIngredient n

/-- A call of one of the two quantity methods of `Ingredient`. -/
inductive IngredientOp where
  | add
  | reduce
deriving DecidableEq, Repr

/-- Performing one `Ingredient` call. -/
def IngredientOp.run (i : Ingredient) : IngredientOp → Ingredient
  | .add => i.add
  | .reduce => i.reduce

/-- A call of one of the subtype operations of a hamburger. -/
inductive HamburgerOp where
  | changeStuffing (stuffing : String)
  | addAdditives (additives : String)
  | removeAdditives (additives : String)
  | reduceAdditives (additives : String)
deriving DecidableEq, Repr

/-- Performing one hamburger call. -/
def HamburgerOp.run (h : Dish) : HamburgerOp → Dish
  | .changeStuffing k => Hamburger.changeStuffing h k
  | .addAdditives k => Hamburger.addAdditives h k
  | .removeAdditives k => Hamburger.removeAdditives h k
  | .reduceAdditives k => Hamburger.reduceAdditives h k

/-- States of a sized hamburger: a `BigHamburger` or `SmallHamburger` freshly
constructed with some filling key, followed by any finite sequence of calls. -/
def Reachable (h : Dish) : Prop :=
  ∃ (stuffing : String) (ops : List HamburgerOp),
    h = ops.foldl HamburgerOp.run (BigHamburger stuffing) ∨
    h = ops.foldl HamburgerOp.run (SmallHamburger stuffing)

/-- Sum of `basePrice * quantity` over a list of ingredients. -/
def sumPrice (l : List Ingredient) : Int :=
  (l.map (fun i => i.basePrice * i.quantity)).sum

/-- Sum of `baseCalories * quantity` over a list of ingredients. -/
def sumCalories (l : List Ingredient) : Int :=
  (l.map (fun i => i.baseCalories * i.quantity)).sum

/-- A dish with the given ingredient list and both totals recomputed from it. -/
def recalc (name : String) (l : List Ingredient) : Dish :=
  { name := name, ingredients := l, price := sumPrice l, calories := sumCalories l }

/-- The stored totals of a dish agree with its ingredient list. -/
def TotalsOk (d : Dish) : Prop :=
  d.price = sumPrice d.ingredients ∧ d.calories = sumCalories d.ingredients

/-- No two ingredients of the list share a name. -/
def UniqueNames (l : List Ingredient) : Prop :=
  (l.map (fun i => i.name)).Nodup

/-- Quantity of the first ingredient of the list that has the given name. -/
def quantityOf (l : List Ingredient) (n : String) : Option Int :=
  (l.find? (fun el => el.name == n)).map (fun el => el.quantity)

/-- Dish used in the concrete instances below: two ingredients, the second twice. -/
def sampleDish : Dish :=
  Dish.new "sample"
    [Ingredient.new "t" "a" 1 2, Ingredient.new "u" "b" 3 4, Ingredient.new "v" "b" 5 6]

/-! ## Catalogs and the hamburger invariant -/

/-- Filling "сыр" as created in `addStuffing`. -/
def cheese : Ingredient := Ingredient.new "Начинка" "сыр" 10 20

/-- Filling "салат" as created in `addStuffing`. -/
def salad : Ingredient := Ingredient.new "Начинка" "салат" 20 5

/-- Filling "картофель" as created in `addStuffing`. -/
def potato : Ingredient := Ingredient.new "Начинка" "картофель" 15 10

/-- Additive "приправа" as created in `addAdditives`. -/
def seasoning : Ingredient := Ingredient.new "Добавка" "приправа" 15 0

/-- Additive "майонез" as created in `addAdditives`. -/
def mayonnaise : Ingredient := Ingredient.new "Добавка" "майонез" 20 5

/-- Base ingredient of `BigHamburger`. -/
def bigBase : Ingredient := Ingredient.new "Основа" "большая булка и котлета" 100 40

/-- Base ingredient of `SmallHamburger`. -/
def smallBase : Ingredient := Ingredient.new "Основа" "маленькая булка и котлета" 50 20

/-- The filling catalog as the specification words it: key to entry, every
unrecognized key resolving to the default "сыр". -/
def catalogFilling (k : String) : Ingredient :=
  if k = "салат" then salad else if k = "картофель" then potato else cheese

/-- The additive catalog as the specification words it: key to entry, every
unrecognized key resolving to the default "приправа". -/
def catalogAdditive (k : String) : Ingredient :=
  if k = "майонез" then mayonnaise else seasoning

/-- All ingredients a hamburger can be given, each with quantity one. -/
def templates : List Ingredient :=
  [cheese, salad, potato, seasoning, mayonnaise, bigBase, smallBase]

/-- The ingredient with its quantity reset to one. -/
def template (i : Ingredient) : Ingredient :=
  { i with quantity := 1 }

/-- An ingredient of a hamburger: a catalog or base ingredient with a positive
quantity, which is one unless it is an additive. -/
def Good (i : Ingredient) : Prop :=
  template i ∈ templates ∧ 1 ≤ i.quantity ∧ (i.type ≠ "Добавка" → i.quantity = 1)

/-- Number of ingredients of the filling category. -/
def fillingCount (l : List Ingredient) : Nat :=
  (l.filter (fun el => el.type == "Начинка")).length

/-- Invariant of the states of a sized hamburger. -/
def HInv (h : Dish) : Prop :=
  TotalsOk h ∧ UniqueNames h.ingredients ∧ (∀ i ∈ h.ingredients, Good i) ∧
    fillingCount h.ingredients = 1

/-- The two additive names `getAdditives` works with. -/
def IsAdditiveName (a : String) : Prop :=
  a = "приправа" ∨ a = "майонез"

/-- The additive a call is about. -/
def AdditiveCall.additive : AdditiveCall → String
  | .addAdditives a => a
  | .removeAdditives a => a
  | .reduceAdditives a => a

/-- The default small burger carrying "приправа" with quantity `q`. -/
def seasonedSmall (q : Int) : Dish :=
  recalc "Маленький гамбургер" [cheese, smallBase, { seasoning with quantity := q }]

/-! ## Sorting and the data behind `getMarkup` -/

/-- UTF-16 code units of a character: one unit below `0x10000`, a surrogate pair
above. JavaScript strings are sequences of these units. -/
def utf16Units (c : Char) : List Nat :=
  if c.toNat < 0x10000 then [c.toNat]
  else [0xD800 + (c.toNat - 0x10000) / 0x400, 0xDC00 + (c.toNat - 0x10000) % 0x400]

/-- The code units of a string. -/
def codeUnits (s : String) : List Nat :=
  s.data.flatMap utf16Units

/-- Lexicographic comparison of two sequences of code units: a proper prefix is
smaller, otherwise the first differing unit decides. -/
def lexLt : List Nat → List Nat → Bool
  | [], [] => false
  | [], _ :: _ => true
  | _ :: _, [] => false
  | a :: as, b :: bs => if a < b then true else if b < a then false else lexLt as bs

/-- The JavaScript comparison `a < b` of two strings. -/
def jsLt (a b : String) : Bool :=
  lexLt (codeUnits a) (codeUnits b)

/-- The comparator passed to `sort` (lines 187-195). -/
def compareType (a b : Ingredient) : Int :=
  if jsLt a.type b.type then -1
  else if jsLt b.type a.type then 1
  else 0

/-- `Array.prototype.sort(compareFn)`: the stable arrangement in which `a` stays before
`b` whenever `compareFn(a, b) <= 0`, computed here by insertion. -/
def arraySort {α : Type} (compareFn : α → α → Int) (l : List α) : List α :=
  l.insertionSort (fun a b => compareFn a b ≤ 0)

/-- Method `sort()` (lines 186-196): sorts `this.ingredients` in place. -/
def Dish.sort (d : Dish) : Dish :=
  { d with ingredients := arraySort compareType d.ingredients }

/-- The `reduce` of lines 151-154: `typesArr[i - 1] !== ingredient.type &&
typesArr.push(ingredient.type)`, where `i` is the index of the ingredient;
`typesArr[-1]` and an index past the end are `undefined`, which differs from every
string. The accumulator carries `typesArr` and `i`. -/
def deriveTypes (ingredients : List Ingredient) : List String :=
  (ingredients.foldl
    (fun (acc : List String × Nat) ingredient =>
      if (if acc.2 = 0 then none else acc.1[acc.2 - 1]?) ≠ some ingredient.type
      then (acc.1 ++ [ingredient.type], acc.2 + 1)
      else (acc.1, acc.2 + 1))
    ([], 0)).1

/-- Method `getMarkup(...types)`, lines 149-155: the state of the dish after the `if`
block (sorted when no type was passed). -/
def Dish.getMarkupState (d : Dish) (types : List String) : Dish :=
  if types.length = 0 then d.sort else d

/-- Method `getMarkup(...types)`, lines 149-155: the value of `types` after the `if`
block. -/
def Dish.getMarkupTypes (d : Dish) (types : List String) : List String :=
  if types.length = 0 then deriveTypes d.sort.ingredients else types

/-- Method `getMarkup(...types)`, lines 156-159: for each type, in order, the result of
`this.ingredients.filter(...)`. The markup of a group is built from this list alone
(the header once, then each ingredient), and is the empty string for an empty list. -/
def Dish.getMarkupGroups (d : Dish) (types : List String) : List (List Ingredient) :=
  (d.getMarkupTypes types).map
    (fun type => (d.getMarkupState types).ingredients.filter
      (fun ingredient => ingredient.type == type))

/-- Dish with three ingredients of one type, used in a concrete instance below. -/
def sameTypeDish : Dish :=
  Dish.new "d" [Ingredient.new "t" "a" 1 1, Ingredient.new "t" "b" 1 1, Ingredient.new "t" "c" 1 1]

/-! ## Object-level model of `Dish`

The definitions above pass ingredients by value and compute in `Int`. That describes a
dish whose `Ingredient` objects belong to it alone and whose numbers are small
integers, as in every hamburger. The definitions of this section keep what the value
model leaves out: `this.ingredients` holds references to the caller's objects, which
`add()` and `reduce()` change in place, and every arithmetic result is rounded to a
double. Numbers are the integers among the doubles; fractions, infinities (magnitude
`2 ^ 1024` and above) and `NaN` are outside the model. -/

/-- Spacing of the doubles at a natural number: `1` below `2 ^ 53`, doubled with every
further binary digit. The first argument bounds the number of digits. -/
def ulp : Nat → Nat → Nat
  | 0, _ => 1
  | fuel + 1, m => if m < 2 ^ 53 then 1 else 2 * ulp fuel (m / 2)

/-- Rounding of a natural number to the nearest multiple of the spacing, a tie going to
the even multiple. -/
def roundNat (m : Nat) : Nat :=
  if 2 * (m % ulp m m) > ulp m m ∨ (2 * (m % ulp m m) = ulp m m ∧ (m / ulp m m) % 2 = 1)
  then (m / ulp m m + 1) * ulp m m
  else (m / ulp m m) * ulp m m

/-- The double nearest to an integer: the integer itself up to magnitude `2 ^ 53`,
rounded beyond. -/
def toDouble (n : Int) : Int :=
  if n.natAbs ≤ 2 ^ 53 then n else n.sign * (roundNat n.natAbs : Int)

/-- The JavaScript sum `a + b` of two numbers. -/
def jsAdd (a b : Int) : Int :=
  toDouble (a + b)

/-- The JavaScript product `a * b` of two numbers. -/
def jsMul (a b : Int) : Int :=
  toDouble (a * b)

namespace Obj

/-- The `Ingredient` objects in memory: the state of the object at each address. -/
abbrev Store : Type := Nat → Ingredient

/-- Method `add()` of `Ingredient`: `this.quantity++`. -/
def add (i : Ingredient) : Ingredient :=
  { i with quantity := jsAdd i.quantity 1 }

/-- Method `reduce()` of `Ingredient`: `if (this.quantity > 1) this.quantity--`. -/
def reduce (i : Ingredient) : Ingredient :=
  if i.quantity > 1 then { i with quantity := jsAdd i.quantity (-1) } else i

/-- Method `calcTotalPrice()` of `Ingredient`. -/
def calcTotalPrice (i : Ingredient) : Int :=
  jsMul i.basePrice i.quantity

/-- Method `calcTotalCalories()` of `Ingredient`. -/
def calcTotalCalories (i : Ingredient) : Int :=
  jsMul i.baseCalories i.quantity

/-- State of a `Dish` object; `ingredients` holds the addresses of the `Ingredient`
objects. -/
structure Dish where
  name : String
  ingredients : List Nat
  price : Int
  calories : Int
deriving DecidableEq, Repr

namespace Dish

/-- Method `calcPrice()`: `reduce` from `0` adding `calcTotalPrice()`. -/
def calcPrice (s : Store) (d : Dish) : Dish :=
  { d with
    price := d.ingredients.foldl
      (fun totalPrice ingredient => jsAdd totalPrice (calcTotalPrice (s ingredient))) 0 }

/-- Method `calcCalories()`: `reduce` from `0` adding `calcTotalCalories()`. -/
def calcCalories (s : Store) (d : Dish) : Dish :=
  { d with
    calories := d.ingredients.foldl
      (fun totalCalories ingredient => jsAdd totalCalories (calcTotalCalories (s ingredient))) 0 }

/-- Method `addIngredient(ingredient)` (lines 84-97): pushes the address it is given,
or calls `add()` on the object already in the list. -/
def addIngredient (s : Store) (d : Dish) (ingredient : Nat) : Store × Dish :=
  match findIndex (fun el => (s el).name == (s ingredient).name) d.ingredients with
  | none =>
    (s, calcCalories s (calcPrice s { d with ingredients := d.ingredients ++ [ingredient] }))
  | some position =>
    match d.ingredients[position]? with
    | some el =>
      (Function.update s el (add (s el)),
        calcCalories (Function.update s el (add (s el)))
          (calcPrice (Function.update s el (add (s el))) d))
    | none => (s, d)

/-- Method `removeIngredient(ingredient)` (lines 103-110); the argument is a name. -/
def removeIngredient (s : Store) (d : Dish) (ingredient : String) : Store × Dish :=
  match findIndex (fun el => (s el).name == ingredient) d.ingredients with
  | some position =>
    (s, calcCalories s (calcPrice s { d with ingredients := d.ingredients.eraseIdx position }))
  | none => (s, d)

/-- Method `reduceIngredient(ingredient)` (lines 116-123); the argument is a name. -/
def reduceIngredient (s : Store) (d : Dish) (ingredient : String) : Store × Dish :=
  match findIndex (fun el => (s el).name == ingredient) d.ingredients with
  | some position =>
    match d.ingredients[position]? with
    | some el =>
      (Function.update s el (reduce (s el)),
        calcCalories (Function.update s el (reduce (s el)))
          (calcPrice (Function.update s el (reduce (s el))) d))
    | none => (s, d)
  | none => (s, d)

/-- The state given by the class fields before the constructor body runs. -/
def empty (name : String) : Dish :=
  { name := name, ingredients := [], price := 0, calories := 0 }

/-- The constructor `new Dish(name, ...ingredients)` (lines 72-78). -/
def new (s : Store) (name : String) (ingredients : List Nat) : Store × Dish :=
  ingredients.foldl (fun st ingredient => addIngredient st.1 st.2 ingredient) (s, empty name)

end Dish

/-- A call of one of the three mutators on a dish; an ingredient argument is the
address of an object. -/
inductive Op where
  | addIngredient (ingredient : Nat)
  | removeIngredient (name : String)
  | reduceIngredient (name : String)
deriving DecidableEq, Repr

/-- Performing one call on the dish, in the memory as the previous call left it. -/
def Op.run (st : Store × Dish) : Op → Store × Dish
  | .addIngredient x => Dish.addIngredient st.1 st.2 x
  | .removeIngredient n => Dish.removeIngredient st.1 st.2 n
  | .reduceIngredient n => Dish.reduceIngredient st.1 st.2 n

/-- The current states of the ingredient objects the dish holds, in order. -/
def contents (st : Store × Dish) : List Ingredient :=
  st.2.ingredients.map st.1

/-- All line totals `basePrice * quantity` and all partial sums from `acc` on are at
most `2 ^ 53` in magnitude, so that no addition or multiplication rounds. -/
def exactPrices (acc : Int) : List Ingredient → Bool
  | [] => true
  | i :: t =>
    decide ((i.basePrice * i.quantity).natAbs ≤ 2 ^ 53) &&
    decide ((acc + i.basePrice * i.quantity).natAbs ≤ 2 ^ 53) &&
    exactPrices (acc + i.basePrice * i.quantity) t

/-- The same for `baseCalories * quantity`. -/
def exactCalories (acc : Int) : List Ingredient → Bool
  | [] => true
  | i :: t =>
    decide ((i.baseCalories * i.quantity).natAbs ≤ 2 ^ 53) &&
    decide ((acc + i.baseCalories * i.quantity).natAbs ≤ 2 ^ 53) &&
    exactCalories (acc + i.baseCalories * i.quantity) t

/-- Memory with one object at every address: type "t", name "a", price 5. -/
def sharedStore : Store :=
  fun _ => Ingredient.new "t" "a" 5 0

/-- Dish `d1` and the memory after: `d1 = new Dish("d1", x)`, `d2 = new Dish("d2", x)`,
`d2.addIngredient(x)`, `d1.removeIngredient("nope")`, with `x` the object at
address 0. -/
def sharedScenario : Store × Dish :=
  Dish.removeIngredient
    (Dish.addIngredient (Dish.new (Dish.new sharedStore "d1" [0]).1 "d2" [0]).1
      (Dish.new (Dish.new sharedStore "d1" [0]).1 "d2" [0]).2 0).1
    (Dish.new sharedStore "d1" [0]).2 "nope"

/-- Memory with price `2 ^ 53` at address 0 (name "a") and price 1 elsewhere (name
"b"). -/
def largeStore : Store :=
  fun r => if r = 0 then Ingredient.new "t" "a" 9007199254740992 0 else Ingredient.new "t" "b" 1 0

/-- Memory used in the concrete instance: "a" with price 5 and calories 2 at address 0,
"b" with price 3 and calories 4 elsewhere. -/
def sampleStore : Store :=
  fun r => if r = 0 then Ingredient.new "t" "a" 5 2 else Ingredient.new "u" "b" 3 4

end Obj

/-- The stored totals are what `calcPrice` and `calcCalories` compute from the current
states of the ingredient objects. -/
def Obj.Consistent (st : Obj.Store × Obj.Dish) : Prop :=
  st.2.price
    = (Obj.contents st).foldl (fun totalPrice i => jsAdd totalPrice (Obj.calcTotalPrice i)) 0 ∧
  st.2.calories
    = (Obj.contents st).foldl
        (fun totalCalories i => jsAdd totalCalories (Obj.calcTotalCalories i)) 0

/-! ## Lemmas on the array helpers -/

theorem findIndex_eq_none {α : Type} (p : α → Bool) (l : List α) :
    findIndex p l = none ↔ ∀ x ∈ l, p x = false := by
  induction l with
  | nil => simp [findIndex]
  | cons a t ih =>
    by_cases hp : p a = true
    · simp [findIndex, hp]
    · simp [findIndex, hp, ih]

theorem findIndex_append_cons {α : Type} (p : α → Bool) (pre : List α) (y : α) (post : List α)
    (hpre : ∀ x ∈ pre, p x = false) (hy : p y = true) :
    findIndex p (pre ++ y :: post) = some pre.length := by
  induction pre with
  | nil => simp [findIndex, hy]
  | cons a t ih =>
    have ha : p a = false := hpre a (by simp)
    have ht : findIndex p (t ++ y :: post) = some t.length :=
      ih (fun x hx => hpre x (by simp [hx]))
    simp [findIndex, ha, ht]

theorem findIndex_eq_some {α : Type} (p : α → Bool) (l : List α) (i : Nat)
    (h : findIndex p l = some i) :
    ∃ pre y post, l = pre ++ y :: post ∧ pre.length = i ∧ p y = true ∧
      ∀ x ∈ pre, p x = false := by
  induction l generalizing i with
  | nil => simp [findIndex] at h
  | cons a t ih =>
    by_cases hp : p a = true
    · simp [findIndex, hp] at h
      exact ⟨[], a, t, by simp, by simp [h], hp, by simp⟩
    · simp [findIndex, hp] at h
      obtain ⟨j, hj, rfl⟩ := h
      obtain ⟨pre, y, post, hl, hlen, hy, hpre⟩ := ih j hj
      refine ⟨a :: pre, y, post, by simp [hl], by simp [hlen], hy, ?_⟩
      intro x hx
      rcases List.mem_cons.1 hx with rfl | hx
      · simpa using hp
      · exact hpre x hx

theorem modifyAt_append_cons {α : Type} (f : α → α) (pre : List α) (y : α) (post : List α) :
    modifyAt f pre.length (pre ++ y :: post) = pre ++ f y :: post := by
  induction pre with
  | nil => simp [modifyAt]
  | cons a t ih => simp [modifyAt, ih]

theorem eraseIdx_append_cons {α : Type} (pre : List α) (y : α) (post : List α) :
    (pre ++ y :: post).eraseIdx pre.length = pre ++ post := by
  induction pre with
  | nil => simp
  | cons a t ih => simp [ih]

theorem getElem?_append_cons {α : Type} (pre : List α) (y : α) (post : List α) :
    (pre ++ y :: post)[pre.length]? = some y := by
  rw [List.getElem?_append_right (Nat.le_refl _)]
  simp

/-- Either nothing satisfies `p`, or the list splits at the first element that does. -/
theorem first_match_cases {α : Type} (p : α → Bool) (l : List α) :
    (findIndex p l = none ∧ ∀ x ∈ l, p x = false) ∨
    ∃ pre y post, l = pre ++ y :: post ∧ findIndex p l = some pre.length ∧ p y = true ∧
      ∀ x ∈ pre, p x = false := by
  cases h : findIndex p l with
  | none => exact Or.inl ⟨rfl, (findIndex_eq_none p l).1 h⟩
  | some i =>
    obtain ⟨pre, y, post, hl, hlen, hy, hpre⟩ := findIndex_eq_some p l i h
    exact Or.inr ⟨pre, y, post, hl, by rw [hlen], hy, hpre⟩

/-! ## Lemmas on the totals -/

theorem foldl_price_acc (l : List Ingredient) (a : Int) :
    l.foldl (fun totalPrice ingredient => totalPrice + ingredient.calcTotalPrice) a
      = a + sumPrice l := by
  induction l generalizing a with
  | nil => simp [sumPrice]
  | cons x t ih =>
    simp only [List.foldl_cons, ih]
    simp [sumPrice, Ingredient.calcTotalPrice, add_assoc]

theorem foldl_calories_acc (l : List Ingredient) (a : Int) :
    l.foldl (fun totalCalories ingredient => totalCalories + ingredient.calcTotalCalories) a
      = a + sumCalories l := by
  induction l generalizing a with
  | nil => simp [sumCalories]
  | cons x t ih =>
    simp only [List.foldl_cons, ih]
    simp [sumCalories, Ingredient.calcTotalCalories, add_assoc]

/-- Running `calcPrice` then `calcCalories` stores both sums. -/
theorem calc_eq_recalc (d : Dish) :
    Dish.calcCalories (Dish.calcPrice d) = recalc d.name d.ingredients := by
  simp [Dish.calcCalories, Dish.calcPrice, recalc, foldl_price_acc, foldl_calories_acc]

theorem sumPrice_append (l₁ l₂ : List Ingredient) :
    sumPrice (l₁ ++ l₂) = sumPrice l₁ + sumPrice l₂ := by
  simp [sumPrice, List.sum_append]

theorem sumCalories_append (l₁ l₂ : List Ingredient) :
    sumCalories (l₁ ++ l₂) = sumCalories l₁ + sumCalories l₂ := by
  simp [sumCalories, List.sum_append]

theorem sumPrice_cons (x : Ingredient) (l : List Ingredient) :
    sumPrice (x :: l) = x.basePrice * x.quantity + sumPrice l := by
  simp [sumPrice]

theorem sumCalories_cons (x : Ingredient) (l : List Ingredient) :
    sumCalories (x :: l) = x.baseCalories * x.quantity + sumCalories l := by
  simp [sumCalories]

/-! ## The three mutators of `Dish`, case by case -/

theorem addIngredient_absent (d : Dish) (x : Ingredient)
    (h : ∀ y ∈ d.ingredients, y.name ≠ x.name) :
    d.addIngredient x = recalc d.name (d.ingredients ++ [x]) := by
  have hf : findIndex (fun el => el.name == x.name) d.ingredients = none :=
    (findIndex_eq_none _ _).2 (fun y hy => by simpa using h y hy)
  simp [Dish.addIngredient, hf, calc_eq_recalc]

theorem addIngredient_present (d : Dish) (x y : Ingredient) (pre post : List Ingredient)
    (hl : d.ingredients = pre ++ y :: post) (hy : y.name = x.name)
    (hpre : ∀ z ∈ pre, z.name ≠ x.name) :
    d.addIngredient x = recalc d.name (pre ++ y.add :: post) := by
  have hf : findIndex (fun el => el.name == x.name) (pre ++ y :: post) = some pre.length := by
    exact findIndex_append_cons _ pre y post (fun z hz => by simpa using hpre z hz)
      (by simpa using hy)
  simp [Dish.addIngredient, hf, calc_eq_recalc, hl, modifyAt_append_cons]

theorem removeIngredient_absent (d : Dish) (n : String)
    (h : ∀ y ∈ d.ingredients, y.name ≠ n) : d.removeIngredient n = d := by
  have hf : findIndex (fun el => el.name == n) d.ingredients = none :=
    (findIndex_eq_none _ _).2 (fun y hy => by simpa using h y hy)
  simp [Dish.removeIngredient, hf]

theorem removeIngredient_present (d : Dish) (n : String) (y : Ingredient)
    (pre post : List Ingredient)
    (hl : d.ingredients = pre ++ y :: post) (hy : y.name = n)
    (hpre : ∀ z ∈ pre, z.name ≠ n) :
    d.removeIngredient n = recalc d.name (pre ++ post) := by
  have hf : findIndex (fun el => el.name == n) (pre ++ y :: post) = some pre.length := by
    exact findIndex_append_cons _ pre y post (fun z hz => by simpa using hpre z hz)
      (by simpa using hy)
  simp [Dish.removeIngredient, hf, calc_eq_recalc, hl, eraseIdx_append_cons]

theorem reduceIngredient_absent (d : Dish) (n : String)
    (h : ∀ y ∈ d.ingredients, y.name ≠ n) : d.reduceIngredient n = d := by
  have hf : findIndex (fun el => el.name == n) d.ingredients = none :=
    (findIndex_eq_none _ _).2 (fun y hy => by simpa using h y hy)
  simp [Dish.reduceIngredient, hf]

theorem reduceIngredient_present (d : Dish) (n : String) (y : Ingredient)
    (pre post : List Ingredient)
    (hl : d.ingredients = pre ++ y :: post) (hy : y.name = n)
    (hpre : ∀ z ∈ pre, z.name ≠ n) :
    d.reduceIngredient n = recalc d.name (pre ++ y.reduce :: post) := by
  have hf : findIndex (fun el => el.name == n) (pre ++ y :: post) = some pre.length := by
    exact findIndex_append_cons _ pre y post (fun z hz => by simpa using hpre z hz)
      (by simpa using hy)
  simp [Dish.reduceIngredient, hf, calc_eq_recalc, hl, modifyAt_append_cons]

/-- Either no ingredient has the name, or the list splits at the first one that has. -/
theorem name_cases (l : List Ingredient) (n : String) :
    (∀ y ∈ l, y.name ≠ n) ∨
    ∃ pre y post, l = pre ++ y :: post ∧ y.name = n ∧ ∀ z ∈ pre, z.name ≠ n := by
  rcases first_match_cases (fun el : Ingredient => el.name == n) l with ⟨_, h⟩ | h
  · exact Or.inl (fun y hy => by simpa using h y hy)
  · obtain ⟨pre, y, post, hl, _, hy, hpre⟩ := h
    exact Or.inr ⟨pre, y, post, hl, by simpa using hy, fun z hz => by simpa using hpre z hz⟩

/-! ## Totals invariant -/

theorem totalsOk_recalc (name : String) (l : List Ingredient) : TotalsOk (recalc name l) :=
  ⟨rfl, rfl⟩

theorem totalsOk_addIngredient (d : Dish) (x : Ingredient) : TotalsOk (d.addIngredient x) := by
  rcases name_cases d.ingredients x.name with h | ⟨pre, y, post, hl, hy, hpre⟩
  · rw [addIngredient_absent d x h]; exact totalsOk_recalc _ _
  · rw [addIngredient_present d x y pre post hl hy hpre]; exact totalsOk_recalc _ _

theorem totalsOk_removeIngredient (d : Dish) (n : String) (hd : TotalsOk d) :
    TotalsOk (d.removeIngredient n) := by
  rcases name_cases d.ingredients n with h | ⟨pre, y, post, hl, hy, hpre⟩
  · rw [removeIngredient_absent d n h]; exact hd
  · rw [removeIngredient_present d n y pre post hl hy hpre]; exact totalsOk_recalc _ _

theorem totalsOk_reduceIngredient (d : Dish) (n : String) (hd : TotalsOk d) :
    TotalsOk (d.reduceIngredient n) := by
  rcases name_cases d.ingredients n with h | ⟨pre, y, post, hl, hy, hpre⟩
  · rw [reduceIngredient_absent d n h]; exact hd
  · rw [reduceIngredient_present d n y pre post hl hy hpre]; exact totalsOk_recalc _ _

theorem totalsOk_run (d : Dish) (op : DishOp) (hd : TotalsOk d) : TotalsOk (op.run d) := by
  cases op with
  | addIngredient x => exact totalsOk_addIngredient d x
  | removeIngredient n => exact totalsOk_removeIngredient d n hd
  | reduceIngredient n => exact totalsOk_reduceIngredient d n hd

theorem totalsOk_foldl_run (ops : List DishOp) (d : Dish) (hd : TotalsOk d) :
    TotalsOk (ops.foldl DishOp.run d) := by
  induction ops generalizing d with
  | nil => exact hd
  | cons op t ih => exact ih _ (totalsOk_run d op hd)

theorem totalsOk_empty (name : String) : TotalsOk (Dish.empty name) := by
  simp [TotalsOk, Dish.empty, sumPrice, sumCalories]

theorem totalsOk_foldl_add (l : List Ingredient) (d : Dish) (hd : TotalsOk d) :
    TotalsOk (l.foldl Dish.addIngredient d) := by
  induction l generalizing d with
  | nil => exact hd
  | cons x t ih => exact ih _ (totalsOk_addIngredient d x)

theorem totalsOk_new (name : String) (init : List Ingredient) : TotalsOk (Dish.new name init) :=
  totalsOk_foldl_add init _ (totalsOk_empty name)

/-! ## Unique names -/

theorem add_name (y : Ingredient) : y.add.name = y.name := rfl

theorem reduce_name (y : Ingredient) : y.reduce.name = y.name := by
  unfold Ingredient.reduce
  split <;> rfl

theorem uniqueNames_addIngredient (d : Dish) (x : Ingredient) (hd : UniqueNames d.ingredients) :
    UniqueNames (d.addIngredient x).ingredients := by
  rcases name_cases d.ingredients x.name with h | ⟨pre, y, post, hl, hy, hpre⟩
  · rw [addIngredient_absent d x h]
    unfold UniqueNames at hd ⊢
    simp only [recalc, List.map_append, List.map_cons, List.map_nil]
    refine List.Nodup.append hd (List.nodup_singleton _) ?_
    intro a ha hax
    obtain ⟨y, hy, rfl⟩ := List.mem_map.1 ha
    simp only [List.mem_singleton] at hax
    exact h y hy hax
  · rw [addIngredient_present d x y pre post hl hy hpre]
    unfold UniqueNames at hd ⊢
    rw [hl] at hd
    simpa [recalc, add_name] using hd

theorem uniqueNames_removeIngredient (d : Dish) (n : String) (hd : UniqueNames d.ingredients) :
    UniqueNames (d.removeIngredient n).ingredients := by
  rcases name_cases d.ingredients n with h | ⟨pre, y, post, hl, hy, hpre⟩
  · rw [removeIngredient_absent d n h]; exact hd
  · rw [removeIngredient_present d n y pre post hl hy hpre]
    unfold UniqueNames at hd ⊢
    rw [hl] at hd
    simp only [recalc]
    refine List.Nodup.sublist (List.Sublist.map _ ?_) hd
    exact List.Sublist.append (List.Sublist.refl pre) (List.sublist_cons_self y post)

theorem uniqueNames_reduceIngredient (d : Dish) (n : String) (hd : UniqueNames d.ingredients) :
    UniqueNames (d.reduceIngredient n).ingredients := by
  rcases name_cases d.ingredients n with h | ⟨pre, y, post, hl, hy, hpre⟩
  · rw [reduceIngredient_absent d n h]; exact hd
  · rw [reduceIngredient_present d n y pre post hl hy hpre]
    unfold UniqueNames at hd ⊢
    rw [hl] at hd
    simpa [recalc, reduce_name] using hd

theorem uniqueNames_run (d : Dish) (op : DishOp) (hd : UniqueNames d.ingredients) :
    UniqueNames (op.run d).ingredients := by
  cases op with
  | addIngredient x => exact uniqueNames_addIngredient d x hd
  | removeIngredient n => exact uniqueNames_removeIngredient d n hd
  | reduceIngredient n => exact uniqueNames_reduceIngredient d n hd

theorem uniqueNames_foldl_run (ops : List DishOp) (d : Dish) (hd : UniqueNames d.ingredients) :
    UniqueNames (ops.foldl DishOp.run d).ingredients := by
  induction ops generalizing d with
  | nil => exact hd
  | cons op t ih => exact ih _ (uniqueNames_run d op hd)

theorem uniqueNames_foldl_add (l : List Ingredient) (d : Dish) (hd : UniqueNames d.ingredients) :
    UniqueNames (l.foldl Dish.addIngredient d).ingredients := by
  induction l generalizing d with
  | nil => exact hd
  | cons x t ih => exact ih _ (uniqueNames_addIngredient d x hd)

theorem uniqueNames_new (name : String) (init : List Ingredient) :
    UniqueNames (Dish.new name init).ingredients :=
  uniqueNames_foldl_add init _ (by simp [UniqueNames, Dish.empty])

theorem uniqueNames_pairwise (l : List Ingredient) (h : UniqueNames l) :
    l.Pairwise (fun a b => a.name ≠ b.name) := by
  unfold UniqueNames at h
  exact (List.pairwise_map.1 h)

/-! ## Quantity lemmas -/

theorem quantityOf_split (pre : List Ingredient) (y : Ingredient) (post : List Ingredient)
    (n : String) (hy : y.name = n) (hpre : ∀ z ∈ pre, z.name ≠ n) :
    quantityOf (pre ++ y :: post) n = some y.quantity := by
  induction pre with
  | nil => simp [quantityOf, hy]
  | cons a t ih =>
    have ha : a.name ≠ n := hpre a (by simp)
    have ht := ih (fun z hz => hpre z (by simp [hz]))
    simp only [quantityOf] at ht ⊢
    rw [List.cons_append, List.find?_cons_of_neg _ (by simpa using ha)]
    exact ht

theorem quantityOf_absent (l : List Ingredient) (n : String) (h : ∀ y ∈ l, y.name ≠ n) :
    quantityOf l n = none := by
  induction l with
  | nil => simp [quantityOf]
  | cons a t ih =>
    have ha : a.name ≠ n := h a (by simp)
    have ht := ih (fun z hz => h z (by simp [hz]))
    simp only [quantityOf] at ht ⊢
    rw [List.find?_cons_of_neg _ (by simpa using ha)]
    exact ht

theorem reduce_of_one (y : Ingredient) (h : y.quantity = 1) : y.reduce = y := by
  simp [Ingredient.reduce, h]

theorem reduce_quantity_of_gt (y : Ingredient) (h : 1 < y.quantity) :
    y.reduce.quantity = y.quantity - 1 := by
  simp [Ingredient.reduce, h]

theorem ingredient_floor (ops : List IngredientOp) (i : Ingredient) (hi : 1 ≤ i.quantity) :
    1 ≤ (ops.foldl IngredientOp.run i).quantity := by
  induction ops generalizing i with
  | nil => exact hi
  | cons op t ih =>
    apply ih
    cases op with
    | add => simp only [IngredientOp.run, Ingredient.add]; omega
    | reduce =>
      simp only [IngredientOp.run, Ingredient.reduce]
      split
      · simp only; omega
      · exact hi

theorem mem_reduceIngredient_of_one (d : Dish) (x : Ingredient) (n : String)
    (hx : x ∈ d.ingredients) (hq : x.quantity = 1) :
    x ∈ (d.reduceIngredient n).ingredients := by
  rcases name_cases d.ingredients n with h | ⟨pre, y, post, hl, hy, hpre⟩
  · rw [reduceIngredient_absent d n h]; exact hx
  · rw [reduceIngredient_present d n y pre post hl hy hpre]
    rw [hl] at hx
    simp only [recalc, List.mem_append, List.mem_cons] at hx ⊢
    rcases hx with hx | rfl | hx
    · exact Or.inl hx
    · exact Or.inr (Or.inl (reduce_of_one x hq).symm)
    · exact Or.inr (Or.inr hx)

theorem reduceIngredient_ingredients_of_one (d : Dish) (n : String)
    (h : quantityOf d.ingredients n = some 1) :
    (d.reduceIngredient n).ingredients = d.ingredients := by
  rcases name_cases d.ingredients n with h0 | ⟨pre, y, post, hl, hy, hpre⟩
  · rw [reduceIngredient_absent d n h0]
  · rw [reduceIngredient_present d n y pre post hl hy hpre]
    rw [hl, quantityOf_split pre y post n hy hpre] at h
    have hq : y.quantity = 1 := by simpa using h
    simp [recalc, hl, reduce_of_one y hq]

/-! ## Claims on `Ingredient` and `Dish` -/

/-- C2: for a dish built by the constructor from any initial ingredient list (repeated
names allowed) and any sequence of `addIngredient`, `removeIngredient` and
`reduceIngredient` calls, no two contained ingredients share a name. -/
theorem dish_unique_names (name : String) (init : List Ingredient) (ops : List DishOp) :
    (ops.foldl DishOp.run (Dish.new name init)).ingredients.Pairwise
      (fun a b => a.name ≠ b.name) :=
  uniqueNames_pairwise _ (uniqueNames_foldl_run ops _ (uniqueNames_new name init))

/-- C5: `addIngredient(x)`: when no contained ingredient has the name of `x`, the list
becomes the old list with `x` appended; when one has, the first such ingredient gets
its quantity increased by one, keeping its own type, price and calories, and every
other ingredient stays as it was. -/
theorem addIngredient_spec (d : Dish) (x : Ingredient) :
    ((∀ y ∈ d.ingredients, y.name ≠ x.name) →
      (d.addIngredient x).ingredients = d.ingredients ++ [x]) ∧
    (∀ (pre : List Ingredient) (y : Ingredient) (post : List Ingredient),
      d.ingredients = pre ++ y :: post → y.name = x.name → (∀ z ∈ pre, z.name ≠ x.name) →
      (d.addIngredient x).ingredients =
        pre ++ { type := y.type, name := y.name, basePrice := y.basePrice,
                 baseCalories := y.baseCalories, quantity := y.quantity + 1 } :: post) := by
  constructor
  · intro h
    rw [addIngredient_absent d x h]
    rfl
  · intro pre y post hl hy hpre
    rw [addIngredient_present d x y pre post hl hy hpre]
    rfl

/-- Instance of C5 on the sample dish: a new name is appended, an existing name is
incremented and the incoming type, price and calories are dropped. -/
theorem addIngredient_spec_witness :
    (sampleDish.addIngredient (Ingredient.new "w" "c" 7 8)).ingredients
      = [Ingredient.new "t" "a" 1 2,
         { type := "u", name := "b", basePrice := 3, baseCalories := 4, quantity := 2 },
         Ingredient.new "w" "c" 7 8] ∧
    (sampleDish.addIngredient (Ingredient.new "w" "b" 7 8)).ingredients
      = [Ingredient.new "t" "a" 1 2,
         { type := "u", name := "b", basePrice := 3, baseCalories := 4, quantity := 3 }] :=
  ⟨(addIngredient_spec sampleDish (Ingredient.new "w" "c" 7 8)).1 (by decide),
   (addIngredient_spec sampleDish (Ingredient.new "w" "b" 7 8)).2
     [Ingredient.new "t" "a" 1 2]
     { type := "u", name := "b", basePrice := 3, baseCalories := 4, quantity := 2 } []
     (by decide) (by decide) (by decide)⟩

/-- C6: an ingredient has quantity at least one after construction and after any
sequence of `add` / `reduce` calls; an ingredient of quantity one stays in the dish,
unchanged, under any number of `reduceIngredient` calls on its name, and the whole
ingredient list stays the same when the first ingredient with that name has quantity
one; a quantity `q > 1` becomes `q - 1` after one `reduceIngredient`. -/
theorem quantity_floor :
    (∀ (type name : String) (p c : Int) (ops : List IngredientOp),
      1 ≤ (ops.foldl IngredientOp.run (Ingredient.new type name p c)).quantity) ∧
    (∀ (d : Dish) (x : Ingredient) (k : Nat), x ∈ d.ingredients → x.quantity = 1 →
      x ∈ ((List.replicate k (DishOp.reduceIngredient x.name)).foldl DishOp.run d).ingredients) ∧
    (∀ (d : Dish) (n : String) (k : Nat), quantityOf d.ingredients n = some 1 →
      ((List.replicate k (DishOp.reduceIngredient n)).foldl DishOp.run d).ingredients
        = d.ingredients) ∧
    (∀ (d : Dish) (n : String) (q : Int), quantityOf d.ingredients n = some q → 1 < q →
      quantityOf (d.reduceIngredient n).ingredients n = some (q - 1)) := by
  refine ⟨?_, ?_, ?_, ?_⟩
  · intro type name p c ops
    exact ingredient_floor ops _ (by simp [Ingredient.new])
  · intro d x k hx hq
    induction k generalizing d with
    | zero => exact hx
    | succ k ih =>
      simp only [List.replicate_succ, List.foldl_cons]
      exact ih _ (mem_reduceIngredient_of_one d x x.name hx hq)
  · intro d n k h
    induction k generalizing d with
    | zero => rfl
    | succ k ih =>
      simp only [List.replicate_succ, List.foldl_cons]
      have h1 := reduceIngredient_ingredients_of_one d n h
      have h2 := ih (d.reduceIngredient n) (by rw [h1]; exact h)
      simp only [DishOp.run]
      rw [h2, h1]
  · intro d n q h hq
    rcases name_cases d.ingredients n with h0 | ⟨pre, y, post, hl, hy, hpre⟩
    · rw [quantityOf_absent _ n h0] at h
      cases h
    · rw [hl, quantityOf_split pre y post n hy hpre] at h
      have hyq : y.quantity = q := by simpa using h
      rw [reduceIngredient_present d n y pre post hl hy hpre]
      simp only [recalc]
      rw [quantityOf_split pre y.reduce post n (by rw [reduce_name]; exact hy) hpre,
        reduce_quantity_of_gt y (by omega), hyq]

/-- Instance of C6 on the sample dish: three `reduceIngredient("a")` calls keep the
quantity-one ingredient, and one `reduceIngredient("b")` takes quantity two to one. -/
theorem quantity_floor_witness :
    Ingredient.new "t" "a" 1 2 ∈
      ((List.replicate 3 (DishOp.reduceIngredient "a")).foldl DishOp.run sampleDish).ingredients ∧
    ((List.replicate 3 (DishOp.reduceIngredient "a")).foldl DishOp.run sampleDish).ingredients
      = sampleDish.ingredients ∧
    quantityOf (sampleDish.reduceIngredient "b").ingredients "b" = some (2 - 1) :=
  ⟨quantity_floor.2.1 sampleDish (Ingredient.new "t" "a" 1 2) 3 (by decide) (by decide),
   quantity_floor.2.2.1 sampleDish "a" 3 (by decide),
   quantity_floor.2.2.2 sampleDish "b" 2 (by decide) (by decide)⟩

/-- C7: when no contained ingredient has the name, `removeIngredient` and
`reduceIngredient` return the dish unchanged (list, quantities, price, calories); when
one has, `removeIngredient` yields the list without the first such ingredient, the
others unchanged and in the same order. -/
theorem remove_reduce_spec (d : Dish) (n : String) :
    ((∀ y ∈ d.ingredients, y.name ≠ n) →
      d.removeIngredient n = d ∧ d.reduceIngredient n = d) ∧
    (∀ (pre : List Ingredient) (y : Ingredient) (post : List Ingredient),
      d.ingredients = pre ++ y :: post → y.name = n → (∀ z ∈ pre, z.name ≠ n) →
      (d.removeIngredient n).ingredients = pre ++ post) := by
  constructor
  · intro h
    exact ⟨removeIngredient_absent d n h, reduceIngredient_absent d n h⟩
  · intro pre y post hl hy hpre
    rw [removeIngredient_present d n y pre post hl hy hpre]
    rfl

/-- Instance of C7 on the sample dish: name "c" is absent, name "a" is the first
ingredient. -/
theorem remove_reduce_spec_witness :
    (sampleDish.removeIngredient "c" = sampleDish ∧ sampleDish.reduceIngredient "c" = sampleDish) ∧
    (sampleDish.removeIngredient "a").ingredients
      = [{ type := "u", name := "b", basePrice := 3, baseCalories := 4, quantity := 2 }] :=
  ⟨(remove_reduce_spec sampleDish "c").1 (by decide),
   (remove_reduce_spec sampleDish "a").2 [] (Ingredient.new "t" "a" 1 2)
     [{ type := "u", name := "b", basePrice := 3, baseCalories := 4, quantity := 2 }]
     (by decide) (by decide) (by decide)⟩

/-! ## Catalog lemmas -/

theorem addStuffing_eq (h : Dish) (k : String) :
    Hamburger.addStuffing h k = h.addIngredient (catalogFilling k) := by
  unfold Hamburger.addStuffing catalogFilling
  split <;> simp_all [cheese, salad, potato]

theorem addAdditives_eq (h : Dish) (k : String) :
    Hamburger.addAdditives h k = h.addIngredient (catalogAdditive k) := by
  unfold Hamburger.addAdditives catalogAdditive
  split <;> simp_all [seasoning, mayonnaise]

theorem templates_name_inj :
    ∀ t₁ ∈ templates, ∀ t₂ ∈ templates, t₁.name = t₂.name → t₁ = t₂ := by
  decide

theorem template_name (i : Ingredient) : (template i).name = i.name := rfl

theorem template_type (i : Ingredient) : (template i).type = i.type := rfl

theorem template_add (i : Ingredient) : template i.add = template i := rfl

theorem template_reduce (i : Ingredient) : template i.reduce = template i := by
  unfold Ingredient.reduce
  split <;> rfl

theorem add_type (i : Ingredient) : i.add.type = i.type := rfl

theorem reduce_type (i : Ingredient) : i.reduce.type = i.type := by
  unfold Ingredient.reduce
  split <;> rfl

/-- Two hamburger ingredients with the same name differ at most in quantity. -/
theorem good_same_name (i j : Ingredient) (hi : Good i) (hj : Good j)
    (h : i.name = j.name) : template i = template j :=
  templates_name_inj _ hi.1 _ hj.1 (by rw [template_name, template_name, h])

theorem good_same_name_type (i j : Ingredient) (hi : Good i) (hj : Good j)
    (h : i.name = j.name) : i.type = j.type := by
  have := congrArg Ingredient.type (good_same_name i j hi hj h)
  simpa [template_type] using this

theorem good_catalogFilling (k : String) : Good (catalogFilling k) := by
  unfold catalogFilling
  split_ifs <;> exact ⟨by decide, by decide, by decide⟩

theorem good_catalogAdditive (k : String) : Good (catalogAdditive k) := by
  unfold catalogAdditive
  split_ifs <;> exact ⟨by decide, by decide, by decide⟩

theorem catalogFilling_type (k : String) : (catalogFilling k).type = "Начинка" := by
  unfold catalogFilling
  split_ifs <;> rfl

theorem catalogAdditive_type (k : String) : (catalogAdditive k).type = "Добавка" := by
  unfold catalogAdditive
  split_ifs <;> rfl

theorem catalogFilling_quantity (k : String) : (catalogFilling k).quantity = 1 := by
  unfold catalogFilling
  split_ifs <;> rfl

theorem catalogAdditive_quantity (k : String) : (catalogAdditive k).quantity = 1 := by
  unfold catalogAdditive
  split_ifs <;> rfl

theorem good_add (y : Ingredient) (hy : Good y) (ht : y.type = "Добавка") : Good y.add := by
  refine ⟨by rw [template_add]; exact hy.1, ?_, ?_⟩
  · have := hy.2.1
    simp only [Ingredient.add]
    omega
  · intro hne
    exact absurd (by rw [add_type]; exact ht) hne

theorem good_reduce (y : Ingredient) (hy : Good y) : Good y.reduce := by
  refine ⟨by rw [template_reduce]; exact hy.1, ?_, ?_⟩
  · have := hy.2.1
    unfold Ingredient.reduce
    split
    · simp only; omega
    · exact this
  · intro hne
    rw [reduce_type] at hne
    have h1 := hy.2.2 hne
    rw [reduce_of_one y h1]
    exact h1

/-! ## Counting fillings -/

theorem fillingCount_append (l₁ l₂ : List Ingredient) :
    fillingCount (l₁ ++ l₂) = fillingCount l₁ + fillingCount l₂ := by
  simp [fillingCount]

theorem fillingCount_cons_filling (y : Ingredient) (l : List Ingredient)
    (h : y.type = "Начинка") : fillingCount (y :: l) = fillingCount l + 1 := by
  simp [fillingCount, h]

theorem fillingCount_cons_other (y : Ingredient) (l : List Ingredient)
    (h : y.type ≠ "Начинка") : fillingCount (y :: l) = fillingCount l := by
  simp [fillingCount, h]

theorem fillingCount_replace (pre post : List Ingredient) (y z : Ingredient)
    (h : z.type = y.type) : fillingCount (pre ++ z :: post) = fillingCount (pre ++ y :: post) := by
  rw [fillingCount_append, fillingCount_append]
  by_cases hy : y.type = "Начинка"
  · rw [fillingCount_cons_filling y post hy, fillingCount_cons_filling z post (h.trans hy)]
  · rw [fillingCount_cons_other y post hy, fillingCount_cons_other z post (by rw [h]; exact hy)]

theorem fillingCount_drop (pre post : List Ingredient) (y : Ingredient)
    (h : y.type ≠ "Начинка") : fillingCount (pre ++ post) = fillingCount (pre ++ y :: post) := by
  rw [fillingCount_append, fillingCount_append, fillingCount_cons_other y post h]

theorem fillingCount_eq_zero (l : List Ingredient) :
    fillingCount l = 0 ↔ ∀ y ∈ l, y.type ≠ "Начинка" := by
  simp [fillingCount, List.filter_eq_nil_iff]

/-! ## Preservation of the hamburger invariant -/

theorem findIndex_some_mem {α : Type} (p : α → Bool) (l : List α) (i : Nat)
    (h : findIndex p l = some i) : ∃ el ∈ l, p el = true := by
  obtain ⟨pre, y, post, hl, _, hy, _⟩ := findIndex_eq_some p l i h
  exact ⟨y, by simp [hl], hy⟩

theorem hinv_recalc (name : String) (l : List Ingredient) (hu : UniqueNames l)
    (hg : ∀ i ∈ l, Good i) (hc : fillingCount l = 1) : HInv (recalc name l) :=
  ⟨totalsOk_recalc name l, hu, hg, hc⟩

theorem hinv_addAdditives (h : Dish) (k : String) (hh : HInv h) :
    HInv (Hamburger.addAdditives h k) := by
  obtain ⟨_, hu, hg, hc⟩ := hh
  rw [addAdditives_eq]
  refine ⟨totalsOk_addIngredient _ _, uniqueNames_addIngredient _ _ hu, ?_, ?_⟩
  · rcases name_cases h.ingredients (catalogAdditive k).name with h0 | ⟨pre, y, post, hl, hy, hpre⟩
    · rw [addIngredient_absent h _ h0]
      intro i hi
      simp only [recalc, List.mem_append, List.mem_singleton] at hi
      rcases hi with hi | rfl
      · exact hg i hi
      · exact good_catalogAdditive k
    · rw [addIngredient_present h _ y pre post hl hy hpre]
      have hyg : Good y := hg y (by simp [hl])
      have hyt : y.type = "Добавка" := by
        rw [good_same_name_type y _ hyg (good_catalogAdditive k) hy, catalogAdditive_type]
      intro i hi
      simp only [recalc, List.mem_append, List.mem_cons] at hi
      rcases hi with hi | rfl | hi
      · exact hg i (by simp [hl, hi])
      · exact good_add y hyg hyt
      · exact hg i (by simp [hl, hi])
  · rcases name_cases h.ingredients (catalogAdditive k).name with h0 | ⟨pre, y, post, hl, hy, hpre⟩
    · rw [addIngredient_absent h _ h0]
      simp only [recalc]
      rw [fillingCount_append, hc,
        fillingCount_cons_other _ _ (by rw [catalogAdditive_type]; decide)]
      rfl
    · rw [addIngredient_present h _ y pre post hl hy hpre]
      simp only [recalc]
      rw [fillingCount_replace pre post y y.add (add_type y), ← hl, hc]

theorem hinv_reduceIngredient (h : Dish) (n : String) (hh : HInv h) :
    HInv (h.reduceIngredient n) := by
  obtain ⟨ht, hu, hg, hc⟩ := hh
  refine ⟨totalsOk_reduceIngredient _ _ ht, uniqueNames_reduceIngredient _ _ hu, ?_, ?_⟩
  · rcases name_cases h.ingredients n with h0 | ⟨pre, y, post, hl, hy, hpre⟩
    · rw [reduceIngredient_absent h n h0]; exact hg
    · rw [reduceIngredient_present h n y pre post hl hy hpre]
      intro i hi
      simp only [recalc, List.mem_append, List.mem_cons] at hi
      rcases hi with hi | rfl | hi
      · exact hg i (by simp [hl, hi])
      · exact good_reduce y (hg y (by simp [hl]))
      · exact hg i (by simp [hl, hi])
  · rcases name_cases h.ingredients n with h0 | ⟨pre, y, post, hl, hy, hpre⟩
    · rw [reduceIngredient_absent h n h0]; exact hc
    · rw [reduceIngredient_present h n y pre post hl hy hpre]
      simp only [recalc]
      rw [fillingCount_replace pre post y y.reduce (reduce_type y), ← hl, hc]

theorem hinv_removeIngredient (h : Dish) (n : String) (hh : HInv h)
    (hn : ∀ y ∈ h.ingredients, y.name = n → y.type ≠ "Начинка") :
    HInv (h.removeIngredient n) := by
  obtain ⟨ht, hu, hg, hc⟩ := hh
  refine ⟨totalsOk_removeIngredient _ _ ht, uniqueNames_removeIngredient _ _ hu, ?_, ?_⟩
  · rcases name_cases h.ingredients n with h0 | ⟨pre, y, post, hl, hy, hpre⟩
    · rw [removeIngredient_absent h n h0]; exact hg
    · rw [removeIngredient_present h n y pre post hl hy hpre]
      intro i hi
      simp only [recalc, List.mem_append] at hi
      rcases hi with hi | hi
      · exact hg i (by simp [hl, hi])
      · exact hg i (by simp [hl, hi])
  · rcases name_cases h.ingredients n with h0 | ⟨pre, y, post, hl, hy, hpre⟩
    · rw [removeIngredient_absent h n h0]; exact hc
    · rw [removeIngredient_present h n y pre post hl hy hpre]
      simp only [recalc]
      rw [fillingCount_drop pre post y (hn y (by simp [hl]) hy), ← hl, hc]

theorem hinv_removeAdditives (h : Dish) (k : String) (hh : HInv h) :
    HInv (Hamburger.removeAdditives h k) := by
  unfold Hamburger.removeAdditives
  split
  · rename_i pos hpos
    obtain ⟨el, hel, hp⟩ := findIndex_some_mem _ _ _ hpos
    simp only [Bool.and_eq_true, beq_iff_eq] at hp
    refine hinv_removeIngredient h k hh ?_
    intro y hy hyn
    rw [good_same_name_type y el (hh.2.2.1 y hy) (hh.2.2.1 el hel) (hyn.trans hp.1.symm), hp.2]
    decide
  · exact hh

theorem hinv_reduceAdditives (h : Dish) (k : String) (hh : HInv h) :
    HInv (Hamburger.reduceAdditives h k) := by
  unfold Hamburger.reduceAdditives
  split
  · exact hinv_reduceIngredient h k hh
  · exact hh

/-- Under the invariant `changeStuffing` removes the one filling and appends the
catalog entry of the key. -/
theorem changeStuffing_eq (h : Dish) (k : String) (hh : HInv h) :
    ∃ pre f post, h.ingredients = pre ++ f :: post ∧ f.type = "Начинка" ∧
      fillingCount (pre ++ post) = 0 ∧ (∀ z ∈ pre, z.name ≠ f.name) ∧
      (∀ z ∈ pre ++ post, z.name ≠ (catalogFilling k).name) ∧
      Hamburger.changeStuffing h k = recalc h.name (pre ++ post ++ [catalogFilling k]) := by
  obtain ⟨_, hu, hg, hc⟩ := hh
  rcases first_match_cases (fun el : Ingredient => el.type == "Начинка") h.ingredients with
    ⟨_, hnone⟩ | ⟨pre, f, post, hl, hidx, hf, hpre⟩
  · have h0 : fillingCount h.ingredients = 0 :=
      (fillingCount_eq_zero _).2 (fun y hy => by simpa using hnone y hy)
    omega
  · have hft : f.type = "Начинка" := by simpa using hf
    have hcount : fillingCount (pre ++ post) = 0 := by
      have h1 := hc
      rw [hl, fillingCount_append, fillingCount_cons_filling f post hft] at h1
      rw [fillingCount_append]
      omega
    have hname : ∀ z ∈ pre, z.name ≠ f.name := by
      intro z hz hzn
      unfold UniqueNames at hu
      rw [hl, List.map_append, List.map_cons] at hu
      have hdis := (List.nodup_append.1 hu).2.2
      exact hdis (List.mem_map.2 ⟨z, hz, hzn⟩) (by simp)
    have habs : ∀ z ∈ pre ++ post, z.name ≠ (catalogFilling k).name := by
      intro z hz hzn
      have hzl : z ∈ h.ingredients := by
        rw [hl]
        rcases List.mem_append.1 hz with hz | hz
        · simp [hz]
        · simp [hz]
      have hzt : z.type = "Начинка" := by
        rw [good_same_name_type z _ (hg z hzl) (good_catalogFilling k) hzn, catalogFilling_type]
      exact (fillingCount_eq_zero _).1 hcount z hz hzt
    refine ⟨pre, f, post, hl, hft, hcount, hname, habs, ?_⟩
    have hget : h.ingredients[pre.length]? = some f := by
      rw [hl]; exact getElem?_append_cons pre f post
    have hrem : h.removeIngredient f.name = recalc h.name (pre ++ post) :=
      removeIngredient_present h f.name f pre post hl rfl hname
    unfold Hamburger.changeStuffing
    simp only [hidx, hget]
    rw [addStuffing_eq, hrem]
    exact addIngredient_absent _ _ habs

theorem hinv_changeStuffing (h : Dish) (k : String) (hh : HInv h) :
    HInv (Hamburger.changeStuffing h k) := by
  obtain ⟨pre, f, post, hl, hft, hcount, hname, habs, heq⟩ := changeStuffing_eq h k hh
  obtain ⟨_, hu, hg, _⟩ := hh
  rw [heq]
  refine hinv_recalc _ _ ?_ ?_ ?_
  · have h1 : UniqueNames (pre ++ post) := by
      unfold UniqueNames at hu ⊢
      rw [hl] at hu
      refine List.Nodup.sublist (List.Sublist.map _ ?_) hu
      exact List.Sublist.append (List.Sublist.refl pre) (List.sublist_cons_self f post)
    unfold UniqueNames at h1 ⊢
    rw [List.map_append]
    refine List.Nodup.append h1 (by simp) ?_
    intro a ha hax
    obtain ⟨y, hy, rfl⟩ := List.mem_map.1 ha
    simp only [List.map_cons, List.map_nil, List.mem_singleton] at hax
    exact habs y hy hax
  · intro i hi
    rcases List.mem_append.1 hi with hi | hi
    · refine hg i ?_
      rw [hl]
      rcases List.mem_append.1 hi with hi | hi
      · simp [hi]
      · simp [hi]
    · rw [List.mem_singleton.1 hi]
      exact good_catalogFilling k
  · rw [fillingCount_append, hcount, fillingCount_cons_filling _ _ (catalogFilling_type k)]
    rfl

theorem hinv_run (h : Dish) (op : HamburgerOp) (hh : HInv h) : HInv (op.run h) := by
  cases op with
  | changeStuffing k => exact hinv_changeStuffing h k hh
  | addAdditives k => exact hinv_addAdditives h k hh
  | removeAdditives k => exact hinv_removeAdditives h k hh
  | reduceAdditives k => exact hinv_reduceAdditives h k hh

theorem hinv_foldl_run (ops : List HamburgerOp) (h : Dish) (hh : HInv h) :
    HInv (ops.foldl HamburgerOp.run h) := by
  induction ops generalizing h with
  | nil => exact hh
  | cons op t ih => exact ih _ (hinv_run h op hh)

theorem smallHamburger_eq (k : String) :
    SmallHamburger k = recalc "Маленький гамбургер" [catalogFilling k, smallBase] := by
  rw [SmallHamburger, Hamburger.new, addStuffing_eq]
  unfold catalogFilling
  split_ifs <;> decide

theorem bigHamburger_eq (k : String) :
    BigHamburger k = recalc "Большой гамбургер" [catalogFilling k, bigBase] := by
  rw [BigHamburger, Hamburger.new, addStuffing_eq]
  unfold catalogFilling
  split_ifs <;> decide

theorem hinv_sized (name : String) (k : String) (b : Ingredient)
    (hb : b = bigBase ∨ b = smallBase) : HInv (recalc name [catalogFilling k, b]) := by
  refine hinv_recalc _ _ ?_ ?_ ?_
  · unfold UniqueNames catalogFilling
    rcases hb with rfl | rfl <;> split_ifs <;> decide
  · intro i hi
    simp only [List.mem_cons, List.mem_singleton, List.not_mem_nil, or_false] at hi
    rcases hi with rfl | rfl
    · exact good_catalogFilling k
    · rcases hb with rfl | rfl <;> exact ⟨by decide, by decide, by decide⟩
  · unfold catalogFilling
    rcases hb with rfl | rfl <;> split_ifs <;> decide

theorem hinv_of_reachable (h : Dish) (hr : Reachable h) : HInv h := by
  obtain ⟨k, ops, rfl | rfl⟩ := hr
  · exact hinv_foldl_run ops _ (by rw [bigHamburger_eq]; exact hinv_sized _ k _ (Or.inl rfl))
  · exact hinv_foldl_run ops _ (by rw [smallHamburger_eq]; exact hinv_sized _ k _ (Or.inr rfl))

/-! ## Claims on construction and on the filling -/

/-- C4: a `BigHamburger` or `SmallHamburger` constructed with any filling key
contains, after any finite sequence of `changeStuffing`, `addAdditives`,
`removeAdditives` and `reduceAdditives` calls with arbitrary keys, exactly one
ingredient of type "Начинка". -/
theorem filling_exclusivity (stuffing : String) (ops : List HamburgerOp) :
    ((ops.foldl HamburgerOp.run (BigHamburger stuffing)).ingredients.filter
      (fun el => el.type == "Начинка")).length = 1 ∧
    ((ops.foldl HamburgerOp.run (SmallHamburger stuffing)).ingredients.filter
      (fun el => el.type == "Начинка")).length = 1 :=
  ⟨(hinv_of_reachable _ ⟨stuffing, ops, Or.inl rfl⟩).2.2.2,
   (hinv_of_reachable _ ⟨stuffing, ops, Or.inr rfl⟩).2.2.2⟩

/-- C8: for every key, `new SmallHamburger(k)` holds exactly the catalog filling of
the key (quantity one) followed by the base 50/20 (quantity one), with price
`50 + filling price` and calories `20 + filling calories`; `BigHamburger` likewise with
base 100/40; the default small burger has price 60 and calories 40. -/
theorem sized_construction (k : String) :
    (SmallHamburger k).ingredients
      = [catalogFilling k,
         { type := "Основа", name := "маленькая булка и котлета", basePrice := 50,
           baseCalories := 20, quantity := 1 }] ∧
    (SmallHamburger k).price = 50 + (catalogFilling k).basePrice ∧
    (SmallHamburger k).calories = 20 + (catalogFilling k).baseCalories ∧
    (BigHamburger k).ingredients
      = [catalogFilling k,
         { type := "Основа", name := "большая булка и котлета", basePrice := 100,
           baseCalories := 40, quantity := 1 }] ∧
    (BigHamburger k).price = 100 + (catalogFilling k).basePrice ∧
    (BigHamburger k).calories = 40 + (catalogFilling k).baseCalories ∧
    (catalogFilling k).quantity = 1 ∧
    (SmallHamburger "сыр").price = 60 ∧ (SmallHamburger "сыр").calories = 40 := by
  have hq := catalogFilling_quantity k
  rw [smallHamburger_eq, bigHamburger_eq]
  refine ⟨rfl, ?_, ?_, rfl, ?_, ?_, hq, by decide, by decide⟩
  · simp [recalc, sumPrice, hq, smallBase, Ingredient.new]; ring
  · simp [recalc, sumCalories, hq, smallBase, Ingredient.new]; ring
  · simp [recalc, sumPrice, hq, bigBase, Ingredient.new]; ring
  · simp [recalc, sumCalories, hq, bigBase, Ingredient.new]; ring

theorem uniqueNames_split (pre post : List Ingredient) (f : Ingredient)
    (hu : UniqueNames (pre ++ f :: post)) : ∀ z ∈ pre ++ post, z.name ≠ f.name := by
  unfold UniqueNames at hu
  rw [List.map_append, List.map_cons] at hu
  obtain ⟨_, h2, h3⟩ := List.nodup_append.1 hu
  intro z hz hzn
  rcases List.mem_append.1 hz with hz | hz
  · exact h3 (List.mem_map.2 ⟨z, hz, hzn⟩) (by simp)
  · exact (List.nodup_cons.1 h2).1 (List.mem_map.2 ⟨z, hz, hzn⟩)

/-- C9: on a reachable sized hamburger `changeStuffing(k)` removes the one filling `f`
and appends the catalog filling of `k`: afterwards that entry, with quantity one, is
the only ingredient of type "Начинка", the old filling's name is gone unless it is
the new one, and the price is the old price minus the old filling's line total plus
the new unit price. On the default small burger `changeStuffing("салат")` leaves the
base and "салат" with quantity one, and price 70. -/
theorem changeStuffing_spec (h : Dish) (k : String) (hr : Reachable h) :
    (∃ pre f post, h.ingredients = pre ++ f :: post ∧ f.type = "Начинка" ∧
      (∀ z ∈ pre ++ post, z.type ≠ "Начинка") ∧
      (Hamburger.changeStuffing h k).ingredients = pre ++ post ++ [catalogFilling k] ∧
      (Hamburger.changeStuffing h k).ingredients.filter (fun el => el.type == "Начинка")
        = [catalogFilling k] ∧
      (catalogFilling k).quantity = 1 ∧
      (f.name ≠ (catalogFilling k).name →
        ∀ z ∈ (Hamburger.changeStuffing h k).ingredients, z.name ≠ f.name) ∧
      (Hamburger.changeStuffing h k).price
        = h.price - f.basePrice * f.quantity + (catalogFilling k).basePrice) ∧
    (Hamburger.changeStuffing (SmallHamburger "сыр") "салат").ingredients
      = [Ingredient.new "Основа" "маленькая булка и котлета" 50 20,
         Ingredient.new "Начинка" "салат" 20 5] ∧
    (Hamburger.changeStuffing (SmallHamburger "сыр") "салат").price = 70 := by
  refine ⟨?_, by decide, by decide⟩
  have hh := hinv_of_reachable h hr
  obtain ⟨pre, f, post, hl, hft, hcount, _, _, heq⟩ := changeStuffing_eq h k hh
  have hq := catalogFilling_quantity k
  have hno : ∀ z ∈ pre ++ post, z.type ≠ "Начинка" := (fillingCount_eq_zero _).1 hcount
  refine ⟨pre, f, post, hl, hft, hno, by rw [heq]; rfl, ?_, hq, ?_, ?_⟩
  · rw [heq]
    simp only [recalc, List.filter_append]
    have h0 : (pre ++ post).filter (fun el => el.type == "Начинка") = [] :=
      List.filter_eq_nil_iff.2 (fun z hz => by simpa using hno z hz)
    rw [← List.filter_append, h0]
    simp [catalogFilling_type]
  · intro hne z hz
    rw [heq] at hz
    simp only [recalc] at hz
    rcases List.mem_append.1 hz with hz | hz
    · exact uniqueNames_split pre post f (by rw [← hl]; exact hh.2.1) z hz
    · rw [List.mem_singleton.1 hz]
      exact fun e => hne e.symm
  · rw [heq, hh.1.1, hl]
    simp only [recalc, sumPrice_append, sumPrice_cons, hq]
    simp only [sumPrice, List.map_nil, List.sum_nil]
    ring

/-- Instance of C9 on a small burger with filling "картофель" and one "майонез",
changed to "салат". -/
theorem changeStuffing_spec_witness :
    ∃ pre f post,
      (Hamburger.addAdditives (SmallHamburger "картофель") "майонез").ingredients
        = pre ++ f :: post ∧ f.type = "Начинка" ∧
      (∀ z ∈ pre ++ post, z.type ≠ "Начинка") ∧
      (Hamburger.changeStuffing
          (Hamburger.addAdditives (SmallHamburger "картофель") "майонез") "салат").ingredients
        = pre ++ post ++ [catalogFilling "салат"] ∧
      (Hamburger.changeStuffing
          (Hamburger.addAdditives (SmallHamburger "картофель") "майонез")
          "салат").ingredients.filter (fun el => el.type == "Начинка")
        = [catalogFilling "салат"] ∧
      (catalogFilling "салат").quantity = 1 ∧
      (f.name ≠ (catalogFilling "салат").name →
        ∀ z ∈ (Hamburger.changeStuffing
          (Hamburger.addAdditives (SmallHamburger "картофель") "майонез") "салат").ingredients,
          z.name ≠ f.name) ∧
      (Hamburger.changeStuffing
          (Hamburger.addAdditives (SmallHamburger "картофель") "майонез") "салат").price
        = (Hamburger.addAdditives (SmallHamburger "картофель") "майонез").price
          - f.basePrice * f.quantity + (catalogFilling "салат").basePrice :=
  (changeStuffing_spec (Hamburger.addAdditives (SmallHamburger "картофель") "майонез") "салат"
    ⟨"картофель", [HamburgerOp.addAdditives "майонез"], Or.inr rfl⟩).1

/-! ## Quantity of an additive -/

theorem findIndex_congr {α : Type} (p q : α → Bool) (l : List α)
    (h : ∀ x ∈ l, p x = q x) : findIndex p l = findIndex q l := by
  induction l with
  | nil => rfl
  | cons a t ih =>
    have ha : p a = q a := h a (by simp)
    have ht := ih (fun x hx => h x (by simp [hx]))
    simp [findIndex, ha, ht]

theorem quantityOf_cons_ne (y : Ingredient) (l : List Ingredient) (n : String)
    (h : y.name ≠ n) : quantityOf (y :: l) n = quantityOf l n := by
  simp only [quantityOf]
  rw [List.find?_cons_of_neg _ (by simpa using h)]

theorem quantityOf_cons_eq (y : Ingredient) (l : List Ingredient) (n : String)
    (h : y.name = n) : quantityOf (y :: l) n = some y.quantity :=
  quantityOf_split [] y l n h (by simp)

theorem quantityOf_append_ne (l : List Ingredient) (x : Ingredient) (n : String)
    (h : x.name ≠ n) : quantityOf (l ++ [x]) n = quantityOf l n := by
  induction l with
  | nil => rw [List.nil_append, quantityOf_cons_ne x [] n h]
  | cons a t ih =>
    by_cases ha : a.name = n
    · rw [List.cons_append, quantityOf_cons_eq a _ n ha, quantityOf_cons_eq a _ n ha]
    · rw [List.cons_append, quantityOf_cons_ne a _ n ha, quantityOf_cons_ne a _ n ha, ih]

theorem quantityOf_replace_ne (pre post : List Ingredient) (y z : Ingredient) (n : String)
    (hy : y.name ≠ n) (hz : z.name ≠ n) :
    quantityOf (pre ++ z :: post) n = quantityOf (pre ++ y :: post) n := by
  induction pre with
  | nil => rw [List.nil_append, List.nil_append, quantityOf_cons_ne z post n hz,
      quantityOf_cons_ne y post n hy]
  | cons a t ih =>
    by_cases ha : a.name = n
    · rw [List.cons_append, List.cons_append, quantityOf_cons_eq a _ n ha,
        quantityOf_cons_eq a _ n ha]
    · rw [List.cons_append, List.cons_append, quantityOf_cons_ne a _ n ha,
        quantityOf_cons_ne a _ n ha, ih]

theorem quantityOf_drop_ne (pre post : List Ingredient) (y : Ingredient) (n : String)
    (hy : y.name ≠ n) : quantityOf (pre ++ post) n = quantityOf (pre ++ y :: post) n := by
  induction pre with
  | nil => rw [List.nil_append, List.nil_append, quantityOf_cons_ne y post n hy]
  | cons a t ih =>
    by_cases ha : a.name = n
    · rw [List.cons_append, List.cons_append, quantityOf_cons_eq a _ n ha,
        quantityOf_cons_eq a _ n ha]
    · rw [List.cons_append, List.cons_append, quantityOf_cons_ne a _ n ha,
        quantityOf_cons_ne a _ n ha, ih]

/-- `addIngredient` does not touch the quantity registered under another name. -/
theorem quantityOf_addIngredient_ne (d : Dish) (x : Ingredient) (n : String)
    (h : x.name ≠ n) :
    quantityOf (d.addIngredient x).ingredients n = quantityOf d.ingredients n := by
  rcases name_cases d.ingredients x.name with h0 | ⟨pre, y, post, hl, hy, hpre⟩
  · rw [addIngredient_absent d x h0]
    exact quantityOf_append_ne _ x n h
  · rw [addIngredient_present d x y pre post hl hy hpre, hl]
    exact quantityOf_replace_ne pre post y y.add n (by rw [hy]; exact h)
      (by rw [add_name, hy]; exact h)

/-- `removeIngredient` does not touch the quantity registered under another name. -/
theorem quantityOf_removeIngredient_ne (d : Dish) (m n : String) (h : m ≠ n) :
    quantityOf (d.removeIngredient m).ingredients n = quantityOf d.ingredients n := by
  rcases name_cases d.ingredients m with h0 | ⟨pre, y, post, hl, hy, hpre⟩
  · rw [removeIngredient_absent d m h0]
  · rw [removeIngredient_present d m y pre post hl hy hpre, hl]
    exact quantityOf_drop_ne pre post y n (by rw [hy]; exact h)

/-- `reduceIngredient` does not touch the quantity registered under another name. -/
theorem quantityOf_reduceIngredient_ne (d : Dish) (m n : String) (h : m ≠ n) :
    quantityOf (d.reduceIngredient m).ingredients n = quantityOf d.ingredients n := by
  rcases name_cases d.ingredients m with h0 | ⟨pre, y, post, hl, hy, hpre⟩
  · rw [reduceIngredient_absent d m h0]
  · rw [reduceIngredient_present d m y pre post hl hy hpre, hl]
    exact quantityOf_replace_ne pre post y y.reduce n (by rw [hy]; exact h)
      (by rw [reduce_name, hy]; exact h)

theorem quantityOf_addIngredient_self (d : Dish) (x : Ingredient) :
    quantityOf (d.addIngredient x).ingredients x.name
      = some (match quantityOf d.ingredients x.name with
              | some q => q + 1
              | none => x.quantity) := by
  rcases name_cases d.ingredients x.name with h0 | ⟨pre, y, post, hl, hy, hpre⟩
  · rw [addIngredient_absent d x h0, quantityOf_absent _ _ h0]
    simp only [recalc]
    rw [quantityOf_split d.ingredients x [] x.name rfl h0]
  · rw [addIngredient_present d x y pre post hl hy hpre, hl,
      quantityOf_split pre y post x.name hy hpre]
    simp only [recalc]
    rw [quantityOf_split pre y.add post x.name (by rw [add_name]; exact hy) hpre]
    rfl

theorem quantityOf_reduceIngredient_self (d : Dish) (n : String) (q : Int)
    (h : quantityOf d.ingredients n = some q) (hq : 1 < q) :
    quantityOf (d.reduceIngredient n).ingredients n = some (q - 1) := by
  rcases name_cases d.ingredients n with h0 | ⟨pre, y, post, hl, hy, hpre⟩
  · rw [quantityOf_absent _ n h0] at h
    cases h
  · rw [hl, quantityOf_split pre y post n hy hpre] at h
    have hyq : y.quantity = q := by simpa using h
    rw [reduceIngredient_present d n y pre post hl hy hpre]
    simp only [recalc]
    rw [quantityOf_split pre y.reduce post n (by rw [reduce_name]; exact hy) hpre,
      reduce_quantity_of_gt y (by omega), hyq]

theorem removeIngredient_gone (d : Dish) (n : String) (hu : UniqueNames d.ingredients) :
    ∀ z ∈ (d.removeIngredient n).ingredients, z.name ≠ n := by
  rcases name_cases d.ingredients n with h0 | ⟨pre, y, post, hl, hy, hpre⟩
  · rw [removeIngredient_absent d n h0]; exact h0
  · rw [removeIngredient_present d n y pre post hl hy hpre]
    intro z hz
    rw [← hy]
    exact uniqueNames_split pre post y (by rw [← hl]; exact hu) z hz

theorem catalogAdditive_name (a : String) (ha : IsAdditiveName a) :
    (catalogAdditive a).name = a := by
  rcases ha with rfl | rfl <;> decide

theorem catalogAdditive_name_isAdditive (k : String) :
    IsAdditiveName (catalogAdditive k).name := by
  unfold catalogAdditive
  split_ifs
  · exact Or.inr rfl
  · exact Or.inl rfl

theorem additive_pred_eq (l : List Ingredient) (a : String) (ha : IsAdditiveName a)
    (hg : ∀ i ∈ l, Good i) :
    ∀ x ∈ l, (x.name == a && x.type == "Добавка") = (x.name == a) := by
  intro x hx
  by_cases hn : x.name = a
  · have ht : x.type = "Добавка" := by
      rw [good_same_name_type x _ (hg x hx) (good_catalogAdditive a)
        (by rw [catalogAdditive_name a ha]; exact hn), catalogAdditive_type]
    simp [hn, ht]
  · simp [hn]

theorem removeAdditives_eq (h : Dish) (a : String) (ha : IsAdditiveName a) (hh : HInv h) :
    Hamburger.removeAdditives h a = h.removeIngredient a := by
  unfold Hamburger.removeAdditives
  rw [findIndex_congr _ _ _ (additive_pred_eq h.ingredients a ha hh.2.2.1)]
  cases hf : findIndex (fun el : Ingredient => el.name == a) h.ingredients with
  | none => simp [Dish.removeIngredient, hf]
  | some pos => rfl

theorem reduceAdditives_eq (h : Dish) (a : String) (ha : IsAdditiveName a) (hh : HInv h) :
    Hamburger.reduceAdditives h a = h.reduceIngredient a := by
  unfold Hamburger.reduceAdditives
  rw [findIndex_congr _ _ _ (additive_pred_eq h.ingredients a ha hh.2.2.1)]
  cases hf : findIndex (fun el : Ingredient => el.name == a) h.ingredients with
  | none => simp [Dish.reduceIngredient, hf]
  | some pos => rfl

theorem getAdditivesQuantity_eq (h : Dish) (a : String) (ha : IsAdditiveName a) (hh : HInv h) :
    Hamburger.getAdditivesQuantity h a = (quantityOf h.ingredients a).getD 0 := by
  unfold Hamburger.getAdditivesQuantity
  rw [findIndex_congr _ _ _ (additive_pred_eq h.ingredients a ha hh.2.2.1)]
  rcases first_match_cases (fun el : Ingredient => el.name == a) h.ingredients with
    ⟨hf, hnone⟩ | ⟨pre, y, post, hl, hidx, hy, hpre⟩
  · rw [hf, quantityOf_absent _ a (fun y hy => by simpa using hnone y hy)]
    rfl
  · have hget : h.ingredients[pre.length]? = some y := by
      rw [hl]; exact getElem?_append_cons pre y post
    simp only [hidx, hget]
    rw [hl, quantityOf_split pre y post a (by simpa using hy)
      (fun z hz => by simpa using hpre z hz)]
    rfl

/-! ## One reconciliation step -/

theorem quantityOf_some_mem (l : List Ingredient) (n : String) (v : Int)
    (h : quantityOf l n = some v) : ∃ y ∈ l, y.name = n ∧ y.quantity = v := by
  rcases name_cases l n with h0 | ⟨pre, y, post, hl, hy, hpre⟩
  · rw [quantityOf_absent l n h0] at h
    cases h
  · rw [hl, quantityOf_split pre y post n hy hpre] at h
    exact ⟨y, by simp [hl], hy, by simpa using h⟩

theorem additiveOf_isAdditive (el : AdditiveInput) : IsAdditiveName (additiveOf el) := by
  unfold additiveOf
  split_ifs
  · exact Or.inl rfl
  · exact Or.inr rfl

theorem getAdditivesQuantity_nonneg (h : Dish) (a : String) (ha : IsAdditiveName a)
    (hh : HInv h) : 0 ≤ Hamburger.getAdditivesQuantity h a := by
  rw [getAdditivesQuantity_eq h a ha hh]
  cases hq : quantityOf h.ingredients a with
  | none => simp
  | some v =>
    obtain ⟨y, hy, _, hv⟩ := quantityOf_some_mem _ _ _ hq
    have := (hh.2.2.1 y hy).2.1
    simp only [Option.getD_some]
    omega

theorem getAdditivesQuantity_add (h : Dish) (a : String) (ha : IsAdditiveName a)
    (hh : HInv h) :
    Hamburger.getAdditivesQuantity (Hamburger.addAdditives h a) a
      = Hamburger.getAdditivesQuantity h a + 1 := by
  rw [getAdditivesQuantity_eq _ a ha (hinv_addAdditives h a hh),
    getAdditivesQuantity_eq h a ha hh, addAdditives_eq]
  have h1 := quantityOf_addIngredient_self h (catalogAdditive a)
  rw [catalogAdditive_name a ha] at h1
  rw [h1]
  cases quantityOf h.ingredients a with
  | none => simp [catalogAdditive_quantity]
  | some v => simp

theorem getAdditivesQuantity_reduce (h : Dish) (a : String) (ha : IsAdditiveName a)
    (hh : HInv h) (hq : 1 < Hamburger.getAdditivesQuantity h a) :
    Hamburger.getAdditivesQuantity (Hamburger.reduceAdditives h a) a
      = Hamburger.getAdditivesQuantity h a - 1 := by
  rw [getAdditivesQuantity_eq _ a ha (hinv_reduceAdditives h a hh)]
  rw [getAdditivesQuantity_eq h a ha hh] at hq ⊢
  rw [reduceAdditives_eq h a ha hh]
  cases hv : quantityOf h.ingredients a with
  | none => rw [hv] at hq; simp at hq
  | some v =>
    rw [hv] at hq
    simp only [Option.getD_some] at hq
    rw [quantityOf_reduceIngredient_self h a v hv hq]
    rfl

theorem removeAdditives_gone (h : Dish) (a : String) (ha : IsAdditiveName a) (hh : HInv h) :
    ∀ z ∈ (Hamburger.removeAdditives h a).ingredients, z.name ≠ a := by
  rw [removeAdditives_eq h a ha hh]
  exact removeIngredient_gone h a hh.2.1

theorem getAdditivesQuantity_remove (h : Dish) (a : String) (ha : IsAdditiveName a)
    (hh : HInv h) :
    Hamburger.getAdditivesQuantity (Hamburger.removeAdditives h a) a = 0 := by
  rw [getAdditivesQuantity_eq _ a ha (hinv_removeAdditives h a hh),
    quantityOf_absent _ a (removeAdditives_gone h a ha hh)]
  rfl

theorem hinv_call (h : Dish) (c : AdditiveCall) (hh : HInv h) : HInv (c.run h) := by
  cases c with
  | addAdditives a => exact hinv_addAdditives h a hh
  | removeAdditives a => exact hinv_removeAdditives h a hh
  | reduceAdditives a => exact hinv_reduceAdditives h a hh

theorem hinv_calls (cs : List AdditiveCall) (h : Dish) (hh : HInv h) :
    HInv (cs.foldl AdditiveCall.run h) := by
  induction cs generalizing h with
  | nil => exact hh
  | cons c t ih => exact ih _ (hinv_call h c hh)

theorem hinv_step (h : Dish) (el : AdditiveInput) (hh : HInv h) :
    HInv (getAdditivesStep h el) :=
  hinv_calls _ h hh

theorem hinv_getAdditives (els : List AdditiveInput) (h : Dish) (hh : HInv h) :
    HInv (getAdditives h els) := by
  unfold getAdditives
  induction els generalizing h with
  | nil => exact hh
  | cons e t ih => exact ih _ (hinv_step h e hh)

theorem add_iterate (a : String) (ha : IsAdditiveName a) (n : Nat) (h : Dish) (hh : HInv h) :
    Hamburger.getAdditivesQuantity
        ((List.replicate n (AdditiveCall.addAdditives a)).foldl AdditiveCall.run h) a
      = Hamburger.getAdditivesQuantity h a + n := by
  induction n generalizing h with
  | zero => simp
  | succ n ih =>
    simp only [List.replicate_succ, List.foldl_cons, AdditiveCall.run]
    rw [ih _ (hinv_addAdditives h a hh), getAdditivesQuantity_add h a ha hh]
    push_cast
    ring

theorem reduce_iterate (a : String) (ha : IsAdditiveName a) (n : Nat) (h : Dish) (hh : HInv h)
    (hn : (n : Int) < Hamburger.getAdditivesQuantity h a) :
    Hamburger.getAdditivesQuantity
        ((List.replicate n (AdditiveCall.reduceAdditives a)).foldl AdditiveCall.run h) a
      = Hamburger.getAdditivesQuantity h a - n := by
  induction n generalizing h with
  | zero => simp
  | succ n ih =>
    simp only [List.replicate_succ, List.foldl_cons, AdditiveCall.run]
    push_cast at hn
    have h1 := getAdditivesQuantity_reduce h a ha hh (by omega)
    rw [ih _ (hinv_reduceAdditives h a hh) (by rw [h1]; omega), h1]
    push_cast
    ring

/-- One step of the reconciliation brings the processed additive to its target. -/
theorem step_quantity (h : Dish) (el : AdditiveInput) (hh : HInv h) (ht : 0 ≤ el.value) :
    Hamburger.getAdditivesQuantity (getAdditivesStep h el) (additiveOf el) = el.value := by
  have ha := additiveOf_isAdditive el
  have hc := getAdditivesQuantity_nonneg h _ ha hh
  unfold getAdditivesStep getAdditivesCalls
  simp only
  split_ifs with h0 h1 h2
  · simp only [List.foldl_cons, List.foldl_nil, AdditiveCall.run]
    rw [getAdditivesQuantity_remove h _ ha hh, h0]
  · rw [add_iterate _ ha _ h hh]
    omega
  · rw [reduce_iterate _ ha _ h hh (by omega)]
    omega
  · simp only [List.foldl_nil]
    omega

/-! ## Steps for one additive leave the other alone -/

theorem call_frame (h : Dish) (c : AdditiveCall) (a : String) (ha : IsAdditiveName a)
    (hc : IsAdditiveName c.additive) (hne : c.additive ≠ a) (hh : HInv h) :
    Hamburger.getAdditivesQuantity (c.run h) a = Hamburger.getAdditivesQuantity h a := by
  rw [getAdditivesQuantity_eq _ a ha (hinv_call h c hh), getAdditivesQuantity_eq h a ha hh]
  cases c with
  | addAdditives b =>
    simp only [AdditiveCall.additive] at hc hne
    simp only [AdditiveCall.run]
    rw [addAdditives_eq, quantityOf_addIngredient_ne h _ a
      (by rw [catalogAdditive_name b hc]; exact hne)]
  | removeAdditives b =>
    simp only [AdditiveCall.additive] at hc hne
    simp only [AdditiveCall.run]
    rw [removeAdditives_eq h b hc hh, quantityOf_removeIngredient_ne h b a hne]
  | reduceAdditives b =>
    simp only [AdditiveCall.additive] at hc hne
    simp only [AdditiveCall.run]
    rw [reduceAdditives_eq h b hc hh, quantityOf_reduceIngredient_ne h b a hne]

theorem calls_frame (cs : List AdditiveCall) (h : Dish) (a : String) (ha : IsAdditiveName a)
    (hcs : ∀ c ∈ cs, IsAdditiveName c.additive ∧ c.additive ≠ a) (hh : HInv h) :
    Hamburger.getAdditivesQuantity (cs.foldl AdditiveCall.run h) a
      = Hamburger.getAdditivesQuantity h a := by
  induction cs generalizing h with
  | nil => rfl
  | cons c t ih =>
    have hc := hcs c (by simp)
    simp only [List.foldl_cons]
    rw [ih _ (fun c' hc' => hcs c' (by simp [hc'])) (hinv_call h c hh),
      call_frame h c a ha hc.1 hc.2 hh]

theorem getAdditivesCalls_additive (h : Dish) (el : AdditiveInput) :
    ∀ c ∈ getAdditivesCalls h el, c.additive = additiveOf el := by
  intro c hc
  unfold getAdditivesCalls at hc
  simp only at hc
  split_ifs at hc
  · rw [List.mem_singleton.1 hc]; rfl
  · rw [(List.mem_replicate.1 hc).2]; rfl
  · rw [(List.mem_replicate.1 hc).2]; rfl
  · simp at hc

theorem step_frame (h : Dish) (el : AdditiveInput) (a : String) (ha : IsAdditiveName a)
    (hne : additiveOf el ≠ a) (hh : HInv h) :
    Hamburger.getAdditivesQuantity (getAdditivesStep h el) a
      = Hamburger.getAdditivesQuantity h a := by
  refine calls_frame _ h a ha ?_ hh
  intro c hc
  rw [getAdditivesCalls_additive h el c hc]
  exact ⟨additiveOf_isAdditive el, hne⟩

theorem getAdditives_frame (els : List AdditiveInput) (h : Dish) (a : String)
    (ha : IsAdditiveName a) (hne : ∀ e ∈ els, additiveOf e ≠ a) (hh : HInv h) :
    Hamburger.getAdditivesQuantity (getAdditives h els) a
      = Hamburger.getAdditivesQuantity h a := by
  induction els generalizing h with
  | nil => rfl
  | cons e t ih =>
    have h1 := ih (getAdditivesStep h e) (fun e' he' => hne e' (by simp [he']))
      (hinv_step h e hh)
    have h2 := step_frame h e a ha (hne e (by simp)) hh
    simp only [getAdditives, List.foldl_cons] at h1 ⊢
    rw [h1, h2]

theorem getAdditives_append (h : Dish) (l₁ l₂ : List AdditiveInput) :
    getAdditives h (l₁ ++ l₂) = getAdditives (getAdditives h l₁) l₂ := by
  simp [getAdditives, List.foldl_append]

theorem getAdditives_cons (h : Dish) (e : AdditiveInput) (l : List AdditiveInput) :
    getAdditives h (e :: l) = getAdditives (getAdditivesStep h e) l := rfl

/-! ## Claim on reconciliation -/

/-- C3: on a reachable sized hamburger, for an input element with a non-negative
target `t` and the additive `a` it stands for, with current quantity `c`: `c` is
non-negative; after the step for that element `getAdditivesQuantity(a)` is `t`; for
`t = 0` no ingredient named `a` is left; the step issues exactly `t - c` calls of
`addAdditives(a)` when `t > c` and exactly `c - t` calls of `reduceAdditives(a)` when
`0 < t < c`; and after a whole run of `getAdditives` over a node list in which no
other element stands for `a`, `getAdditivesQuantity(a)` is `t`. -/
theorem reconciliation_converges (h : Dish) (el : AdditiveInput) (hr : Reachable h)
    (ht : 0 ≤ el.value) :
    0 ≤ Hamburger.getAdditivesQuantity h (additiveOf el) ∧
    Hamburger.getAdditivesQuantity (getAdditivesStep h el) (additiveOf el) = el.value ∧
    (el.value = 0 → ∀ z ∈ (getAdditivesStep h el).ingredients, z.name ≠ additiveOf el) ∧
    (Hamburger.getAdditivesQuantity h (additiveOf el) < el.value →
      getAdditivesCalls h el
        = List.replicate (el.value - Hamburger.getAdditivesQuantity h (additiveOf el)).toNat
            (AdditiveCall.addAdditives (additiveOf el))) ∧
    (0 < el.value → el.value < Hamburger.getAdditivesQuantity h (additiveOf el) →
      getAdditivesCalls h el
        = List.replicate (Hamburger.getAdditivesQuantity h (additiveOf el) - el.value).toNat
            (AdditiveCall.reduceAdditives (additiveOf el))) ∧
    (∀ pre post : List AdditiveInput, (∀ e ∈ pre ++ post, additiveOf e ≠ additiveOf el) →
      Hamburger.getAdditivesQuantity (getAdditives h (pre ++ el :: post)) (additiveOf el)
        = el.value) := by
  have hh := hinv_of_reachable h hr
  have ha := additiveOf_isAdditive el
  have hc := getAdditivesQuantity_nonneg h _ ha hh
  refine ⟨hc, step_quantity h el hh ht, ?_, ?_, ?_, ?_⟩
  · intro h0
    have : getAdditivesStep h el = Hamburger.removeAdditives h (additiveOf el) := by
      simp [getAdditivesStep, getAdditivesCalls, h0, AdditiveCall.run]
    rw [this]
    exact removeAdditives_gone h _ ha hh
  · intro hlt
    unfold getAdditivesCalls
    simp only
    rw [if_neg (by omega), if_pos (by omega)]
  · intro hpos hlt
    unfold getAdditivesCalls
    simp only
    rw [if_neg (by omega), if_neg (by omega), if_pos (by omega)]
    congr 1
    omega
  · intro pre post hne
    rw [getAdditives_append, getAdditives_cons]
    have h1 := hinv_getAdditives pre h hh
    rw [getAdditives_frame post _ _ ha (fun e he => hne e (by simp [he])) (hinv_step _ el h1)]
    exact step_quantity _ el h1 ht

/-- Instance of C3: the default small burger with one "приправа", target three for the
input `seasoning` in a node list of two inputs. -/
theorem reconciliation_converges_witness :
    Hamburger.getAdditivesQuantity
        (getAdditivesStep (Hamburger.addAdditives (SmallHamburger "сыр") "приправа")
          { id := "seasoning", value := 3 }) "приправа" = 3 ∧
    getAdditivesCalls (Hamburger.addAdditives (SmallHamburger "сыр") "приправа")
        { id := "seasoning", value := 3 }
      = [AdditiveCall.addAdditives "приправа", AdditiveCall.addAdditives "приправа"] ∧
    Hamburger.getAdditivesQuantity
        (getAdditives (Hamburger.addAdditives (SmallHamburger "сыр") "приправа")
          [{ id := "seasoning", value := 3 }, { id := "mayo", value := 2 }]) "приправа" = 3 :=
  ⟨(reconciliation_converges (Hamburger.addAdditives (SmallHamburger "сыр") "приправа")
      { id := "seasoning", value := 3 }
      ⟨"сыр", [HamburgerOp.addAdditives "приправа"], Or.inr rfl⟩ (by decide)).2.1,
   (reconciliation_converges (Hamburger.addAdditives (SmallHamburger "сыр") "приправа")
      { id := "seasoning", value := 3 }
      ⟨"сыр", [HamburgerOp.addAdditives "приправа"], Or.inr rfl⟩ (by decide)).2.2.2.1
      (by decide),
   (reconciliation_converges (Hamburger.addAdditives (SmallHamburger "сыр") "приправа")
      { id := "seasoning", value := 3 }
      ⟨"сыр", [HamburgerOp.addAdditives "приправа"], Or.inr rfl⟩ (by decide)).2.2.2.2.2
      [] [{ id := "mayo", value := 2 }] (by decide)⟩

/-! ## Additive pricing on the default small burger -/

theorem removeAdditives_absent (h : Dish) (a : String)
    (h0 : ∀ z ∈ h.ingredients, z.name ≠ a) : Hamburger.removeAdditives h a = h := by
  have hf : findIndex (fun el : Ingredient => el.name == a && el.type == "Добавка")
      h.ingredients = none :=
    (findIndex_eq_none _ _).2 (fun y hy => by simp [h0 y hy])
  simp [Hamburger.removeAdditives, hf]

theorem small_default_eq : SmallHamburger "сыр" = recalc "Маленький гамбургер" [cheese, smallBase] := by
  decide

theorem add_seasoned (q : Int) :
    Hamburger.addAdditives (seasonedSmall q) "приправа" = seasonedSmall (q + 1) := by
  rw [addAdditives_eq]
  exact addIngredient_present (seasonedSmall q) _ { seasoning with quantity := q }
    [cheese, smallBase] [] rfl (catalogAdditive_name _ (Or.inl rfl)).symm (by decide)

theorem add_seasoning_iterate (n : Nat) :
    (List.replicate (n + 1) (AdditiveCall.addAdditives "приправа")).foldl AdditiveCall.run
      (SmallHamburger "сыр") = seasonedSmall (n + 1) := by
  induction n with
  | zero => decide
  | succ n ih =>
    rw [List.replicate_succ', List.foldl_append, ih]
    simp only [List.foldl_cons, List.foldl_nil, AdditiveCall.run]
    rw [add_seasoned]
    push_cast
    rfl

theorem seasonedSmall_price (q : Int) : (seasonedSmall q).price = 60 + 15 * q := by
  simp [seasonedSmall, recalc, sumPrice, cheese, smallBase, seasoning, Ingredient.new]
  ring

theorem seasonedSmall_calories (q : Int) : (seasonedSmall q).calories = 40 := by
  simp [seasonedSmall, recalc, sumCalories, cheese, smallBase, seasoning, Ingredient.new]

theorem remove_seasoned (q : Int) :
    Hamburger.removeAdditives (seasonedSmall q) "приправа" = SmallHamburger "сыр" := by
  have hf : findIndex (fun el : Ingredient => el.name == "приправа" && el.type == "Добавка")
      (seasonedSmall q).ingredients = some 2 :=
    findIndex_append_cons _ [cheese, smallBase] { seasoning with quantity := q } []
      (by decide) rfl
  unfold Hamburger.removeAdditives
  simp only [hf]
  rw [removeIngredient_present (seasonedSmall q) "приправа" { seasoning with quantity := q }
    [cheese, smallBase] [] rfl rfl (by decide), small_default_eq]
  rfl

theorem seasonedSmall_no_mayonnaise (q : Int) :
    ∀ z ∈ (seasonedSmall q).ingredients, z.name ≠ "майонез" := by
  intro z hz
  simp only [seasonedSmall, recalc, List.mem_cons, List.mem_singleton, List.not_mem_nil,
    or_false] at hz
  rcases hz with rfl | rfl | rfl
  · decide
  · decide
  · show "приправа" ≠ "майонез"
    decide

theorem step_seasoning_fresh (t : Int) (ht : 0 < t) :
    getAdditivesStep (SmallHamburger "сыр") { id := "seasoning", value := t } = seasonedSmall t := by
  have hk : additiveOf { id := "seasoning", value := t } = "приправа" := by simp [additiveOf]
  have hq : Hamburger.getAdditivesQuantity (SmallHamburger "сыр") "приправа" = 0 := by decide
  obtain ⟨n, hn⟩ : ∃ n : Nat, t = n + 1 := ⟨(t - 1).toNat, by omega⟩
  have hcalls : getAdditivesCalls (SmallHamburger "сыр") { id := "seasoning", value := t }
      = List.replicate (n + 1) (AdditiveCall.addAdditives "приправа") := by
    unfold getAdditivesCalls
    simp only [hk, hq]
    rw [if_neg (by omega), if_pos (by omega)]
    congr 1
    omega
  unfold getAdditivesStep
  rw [hcalls, add_seasoning_iterate, hn]

theorem step_seasoning_zero (h : Dish) :
    getAdditivesStep h { id := "seasoning", value := 0 } = Hamburger.removeAdditives h "приправа" := by
  simp [getAdditivesStep, getAdditivesCalls, additiveOf, AdditiveCall.run]

theorem step_other_zero (h : Dish) (id : String) (hid : id ≠ "seasoning")
    (h0 : ∀ z ∈ h.ingredients, z.name ≠ "майонез") :
    getAdditivesStep h { id := id, value := 0 } = h := by
  have : getAdditivesStep h { id := id, value := 0 } = Hamburger.removeAdditives h "майонез" := by
    simp [getAdditivesStep, getAdditivesCalls, additiveOf, AdditiveCall.run, hid]
  rw [this, removeAdditives_absent h _ h0]

theorem small_default_no_additive :
    (∀ z ∈ (SmallHamburger "сыр").ingredients, z.name ≠ "приправа") ∧
    (∀ z ∈ (SmallHamburger "сыр").ingredients, z.name ≠ "майонез") := by
  decide

/-- C10: for every non-negative target `t` for "приправа" and target 0 for the other
input ("майонез"), in either order of the two inputs, one run of `getAdditives` on the
default small burger gives price `60 + 15 * t` and calories 40; a second run with
target 0 for "приправа" gives back the default small burger, which has no "приправа"
and price 60. -/
theorem additive_pricing (t : Int) (ht : 0 ≤ t) (id : String) (hid : id ≠ "seasoning") :
    (getAdditives (SmallHamburger "сыр")
      [{ id := "seasoning", value := t }, { id := id, value := 0 }]).price = 60 + 15 * t ∧
    (getAdditives (SmallHamburger "сыр")
      [{ id := "seasoning", value := t }, { id := id, value := 0 }]).calories = 40 ∧
    getAdditives (SmallHamburger "сыр")
        [{ id := id, value := 0 }, { id := "seasoning", value := t }]
      = getAdditives (SmallHamburger "сыр")
        [{ id := "seasoning", value := t }, { id := id, value := 0 }] ∧
    getAdditives
        (getAdditives (SmallHamburger "сыр")
          [{ id := "seasoning", value := t }, { id := id, value := 0 }])
        [{ id := "seasoning", value := 0 }, { id := id, value := 0 }]
      = SmallHamburger "сыр" ∧
    getAdditives
        (getAdditives (SmallHamburger "сыр")
          [{ id := "seasoning", value := t }, { id := id, value := 0 }])
        [{ id := id, value := 0 }, { id := "seasoning", value := 0 }]
      = SmallHamburger "сыр" ∧
    (SmallHamburger "сыр").price = 60 ∧
    (∀ z ∈ (SmallHamburger "сыр").ingredients, z.name ≠ "приправа") := by
  have hfresh := small_default_no_additive
  have hrun : ∀ h : Dish, ∀ e₁ e₂ : AdditiveInput,
      getAdditives h [e₁, e₂] = getAdditivesStep (getAdditivesStep h e₁) e₂ := fun _ _ _ => rfl
  rcases eq_or_lt_of_le ht with h0 | hpos
  · subst h0
    have hs : getAdditivesStep (SmallHamburger "сыр") { id := "seasoning", value := 0 }
        = SmallHamburger "сыр" := by
      rw [step_seasoning_zero, removeAdditives_absent _ _ hfresh.1]
    have hm : getAdditivesStep (SmallHamburger "сыр") { id := id, value := 0 }
        = SmallHamburger "сыр" := step_other_zero _ id hid hfresh.2
    simp only [hrun, hs, hm]
    exact ⟨by decide, by decide, trivial, trivial, trivial, by decide, hfresh.1⟩
  · have hs := step_seasoning_fresh t hpos
    have hm : getAdditivesStep (SmallHamburger "сыр") { id := id, value := 0 }
        = SmallHamburger "сыр" := step_other_zero _ id hid hfresh.2
    have hm2 : getAdditivesStep (seasonedSmall t) { id := id, value := 0 } = seasonedSmall t :=
      step_other_zero _ id hid (seasonedSmall_no_mayonnaise t)
    have hs0 : getAdditivesStep (seasonedSmall t) { id := "seasoning", value := 0 }
        = SmallHamburger "сыр" := by
      rw [step_seasoning_zero, remove_seasoned]
    simp only [hrun, hs, hm, hm2, hs0]
    exact ⟨seasonedSmall_price t, seasonedSmall_calories t, trivial, trivial, trivial, by decide, hfresh.1⟩

/-- Instance of C10 (scenarios B and C): target three gives price 105, target zero
afterwards gives price 60 again. -/
theorem additive_pricing_witness :
    (getAdditives (SmallHamburger "сыр")
      [{ id := "seasoning", value := 3 }, { id := "mayo", value := 0 }]).price = 60 + 15 * 3 ∧
    getAdditives
        (getAdditives (SmallHamburger "сыр")
          [{ id := "seasoning", value := 3 }, { id := "mayo", value := 0 }])
        [{ id := "seasoning", value := 0 }, { id := "mayo", value := 0 }]
      = SmallHamburger "сыр" :=
  ⟨(additive_pricing 3 (by decide) "mayo" (by decide)).1,
   (additive_pricing 3 (by decide) "mayo" (by decide)).2.2.2.1⟩

/-! ## The order used by `sort` -/

theorem lexLt_irrefl (x : List Nat) : lexLt x x = false := by
  induction x with
  | nil => rfl
  | cons a t ih => simp [lexLt, ih]

theorem lexLt_asymm (x y : List Nat) (h : lexLt x y = true) : lexLt y x = false := by
  induction x generalizing y with
  | nil => cases y <;> simp_all [lexLt]
  | cons a t ih =>
    cases y with
    | nil => simp [lexLt] at h
    | cons b u =>
      simp only [lexLt] at h ⊢
      split_ifs at h ⊢ <;> first | omega | rfl | exact ih u h

theorem lexLt_trans (x y z : List Nat) (h₁ : lexLt x y = true) (h₂ : lexLt y z = true) :
    lexLt x z = true := by
  induction x generalizing y z with
  | nil =>
    cases y with
    | nil => simp [lexLt] at h₁
    | cons b u =>
      cases z with
      | nil => simp [lexLt] at h₂
      | cons c v => rfl
  | cons a t ih =>
    cases y with
    | nil => simp [lexLt] at h₁
    | cons b u =>
      cases z with
      | nil => simp [lexLt] at h₂
      | cons c v =>
        simp only [lexLt] at h₁ h₂ ⊢
        by_cases hab : a < b
        · by_cases hbc : b < c
          · rw [if_pos (by omega)]
          · rw [if_neg hbc] at h₂
            by_cases hcb : c < b
            · simp [hcb] at h₂
            · rw [if_pos (by omega)]
        · rw [if_neg hab] at h₁
          by_cases hba : b < a
          · simp [hba] at h₁
          · rw [if_neg hba] at h₁
            have hab' : a = b := by omega
            subst hab'
            by_cases hac : a < c
            · rw [if_pos hac]
            · rw [if_neg hac] at h₂ ⊢
              by_cases hca : c < a
              · simp [hca] at h₂
              · rw [if_neg hca] at h₂ ⊢
                exact ih u v h₁ h₂

theorem lexLt_connex (x y : List Nat) (h₁ : lexLt x y = false) (h₂ : lexLt y x = false) :
    x = y := by
  induction x generalizing y with
  | nil =>
    cases y with
    | nil => rfl
    | cons b u => simp [lexLt] at h₁
  | cons a t ih =>
    cases y with
    | nil => simp [lexLt] at h₂
    | cons b u =>
      simp only [lexLt] at h₁ h₂
      by_cases hab : a < b
      · simp [hab] at h₁
      · by_cases hba : b < a
        · simp [hba] at h₂
        · rw [if_neg hab, if_neg hba] at h₁
          rw [if_neg hba, if_neg hab] at h₂
          have : a = b := by omega
          subst this
          rw [ih u h₁ h₂]

theorem compareType_le_iff (a b : Ingredient) :
    compareType a b ≤ 0 ↔ jsLt b.type a.type = false := by
  unfold compareType
  by_cases h1 : jsLt a.type b.type = true
  · have h2 : jsLt b.type a.type = false := lexLt_asymm _ _ h1
    simp [h1, h2]
  · by_cases h2 : jsLt b.type a.type = true
    · simp [h1, h2]
    · simp [h1, h2]

theorem compareType_total (a b : Ingredient) : compareType a b ≤ 0 ∨ compareType b a ≤ 0 := by
  rw [compareType_le_iff, compareType_le_iff]
  by_cases h : jsLt b.type a.type = true
  · exact Or.inr (lexLt_asymm _ _ h)
  · exact Or.inl (by simpa using h)

theorem compareType_trans (a b c : Ingredient) (h₁ : compareType a b ≤ 0)
    (h₂ : compareType b c ≤ 0) : compareType a c ≤ 0 := by
  rw [compareType_le_iff] at h₁ h₂ ⊢
  by_cases hca : jsLt c.type a.type = true
  · exfalso
    by_cases hab : jsLt a.type b.type = true
    · have := lexLt_trans _ _ _ hca hab
      unfold jsLt at h₂
      rw [this] at h₂
      cases h₂
    · have heq : codeUnits a.type = codeUnits b.type :=
        lexLt_connex _ _ (by simpa [jsLt] using hab) (by simpa [jsLt] using h₁)
      unfold jsLt at hca h₂
      rw [heq, h₂] at hca
      cases hca
  · simpa using hca

theorem compareType_same_type (a b : Ingredient) (h : a.type = b.type) :
    compareType a b ≤ 0 := by
  rw [compareType_le_iff, h]
  exact lexLt_irrefl _

/-! ## Properties of `sort` -/

theorem arraySort_perm (l : List Ingredient) : (arraySort compareType l).Perm l :=
  List.perm_insertionSort _ l

theorem arraySort_sorted (l : List Ingredient) :
    (arraySort compareType l).Pairwise (fun a b => compareType a b ≤ 0) := by
  haveI : IsTotal Ingredient (fun a b => compareType a b ≤ 0) := ⟨compareType_total⟩
  haveI : IsTrans Ingredient (fun a b => compareType a b ≤ 0) := ⟨compareType_trans⟩
  exact List.sorted_insertionSort (fun a b => compareType a b ≤ 0) l

theorem arraySort_stable (l : List Ingredient) (t : String) :
    (arraySort compareType l).filter (fun i => i.type == t)
      = l.filter (fun i => i.type == t) := by
  have hpw : (l.filter (fun i => i.type == t)).Pairwise (fun a b => compareType a b ≤ 0) := by
    refine List.Pairwise.imp_mem.2 (List.pairwise_of_forall ?_)
    intro x y hx hy
    have hxt : x.type = t := by simpa using (List.mem_filter.1 hx).2
    have hyt : y.type = t := by simpa using (List.mem_filter.1 hy).2
    exact compareType_same_type x y (hxt.trans hyt.symm)
  have hsub : List.Sublist (l.filter (fun i => i.type == t)) (arraySort compareType l) :=
    List.sublist_insertionSort hpw (List.filter_sublist l)
  have hsub2 := hsub.filter (fun i => i.type == t)
  rw [List.filter_filter] at hsub2
  simp only [Bool.and_self] at hsub2
  have hlen : ((arraySort compareType l).filter (fun i => i.type == t)).length
      = (l.filter (fun i => i.type == t)).length :=
    ((arraySort_perm l).filter _).length_eq
  exact (hsub2.eq_of_length hlen.symm).symm

theorem sumPrice_perm (l₁ l₂ : List Ingredient) (h : l₁.Perm l₂) : sumPrice l₁ = sumPrice l₂ :=
  (h.map _).sum_eq

theorem sumCalories_perm (l₁ l₂ : List Ingredient) (h : l₁.Perm l₂) :
    sumCalories l₁ = sumCalories l₂ :=
  (h.map _).sum_eq

/-! ## Claim on `sort` -/

/-- C13: after `sort()` the ingredient list is a permutation of the list before, it is
ordered by type ascending under the comparison of strings (no later element has a
smaller type), ingredients of one type keep their relative order (for every type the
sub-list of that type is the same before and after), and name, price and calories are
unchanged. -/
theorem sort_spec (d : Dish) :
    d.sort.ingredients.Perm d.ingredients ∧
    d.sort.ingredients.Pairwise (fun a b => jsLt b.type a.type = false) ∧
    (∀ t : String, d.sort.ingredients.filter (fun i => i.type == t)
      = d.ingredients.filter (fun i => i.type == t)) ∧
    d.sort.price = d.price ∧ d.sort.calories = d.calories ∧ d.sort.name = d.name := by
  refine ⟨arraySort_perm _, ?_, arraySort_stable _, rfl, rfl, rfl⟩
  exact (arraySort_sorted d.ingredients).imp (fun h => (compareType_le_iff _ _).1 h)

/-! ## Keys that are not in the additive catalog -/

/-- C11: evaluation at the key "кетчуп", which `addAdditives` resolves to "приправа":
`removeAdditives("кетчуп")` leaves the "приправа" just added in the dish, and
`reduceAdditives("кетчуп")` leaves its quantity two as it is; neither resolves the key
as `addAdditives` does. -/
theorem remove_reduce_unresolved_key :
    (Hamburger.addAdditives (SmallHamburger "сыр") "кетчуп").ingredients
      = [cheese, smallBase, seasoning] ∧
    Hamburger.removeAdditives (Hamburger.addAdditives (SmallHamburger "сыр") "кетчуп") "кетчуп"
      = Hamburger.addAdditives (SmallHamburger "сыр") "кетчуп" ∧
    Hamburger.removeAdditives (Hamburger.addAdditives (SmallHamburger "сыр") "кетчуп") "кетчуп"
      ≠ SmallHamburger "сыр" ∧
    Hamburger.reduceAdditives
        (Hamburger.addAdditives (Hamburger.addAdditives (SmallHamburger "сыр") "кетчуп") "кетчуп")
        "кетчуп"
      = Hamburger.addAdditives (Hamburger.addAdditives (SmallHamburger "сыр") "кетчуп") "кетчуп" ∧
    Hamburger.getAdditivesQuantity
        (Hamburger.addAdditives (Hamburger.addAdditives (SmallHamburger "сыр") "кетчуп") "кетчуп")
        "приправа" = 2 := by
  decide

/-- C12: evaluation at the key "кетчуп": `getAdditivesQuantity("кетчуп")` is zero before
and after `addAdditives("кетчуп")`, although the call added one "приправа"; the key is
compared with the ingredient names as it is, not resolved through the catalog. -/
theorem quantity_unresolved_key :
    Hamburger.getAdditivesQuantity (SmallHamburger "сыр") "кетчуп" = 0 ∧
    Hamburger.getAdditivesQuantity
      (Hamburger.addAdditives (SmallHamburger "сыр") "кетчуп") "кетчуп" = 0 ∧
    Hamburger.getAdditivesQuantity
      (Hamburger.addAdditives (SmallHamburger "сыр") "кетчуп") "приправа" = 1 := by
  decide

/-! ## Claims on the data behind `getMarkup` -/

/-- C14: evaluation on a dish with three ingredients of one type "t": with no type
passed, the derived order is `["t", "t"]`, the type twice, and each of the three
ingredients is in both groups. -/
theorem derived_types_repeat :
    sameTypeDish.ingredients.map (fun i => i.type) = ["t", "t", "t"] ∧
    sameTypeDish.getMarkupTypes [] = ["t", "t"] ∧
    sameTypeDish.getMarkupGroups [] = [sameTypeDish.ingredients, sameTypeDish.ingredients] := by
  decide

/-- C15: when at least one type is passed, `getMarkup` works on the types as given:
one group per listed type, in the given order, each consisting of the ingredients of
that type in the order of the dish; a type no ingredient has gives an empty group, and
an ingredient whose type is not listed is in no group. -/
theorem explicit_groups (d : Dish) (types : List String) (h : types ≠ []) :
    d.getMarkupGroups types
      = types.map (fun c => d.ingredients.filter (fun i => i.type == c)) ∧
    (d.getMarkupGroups types).length = types.length ∧
    (∀ c ∈ types, (∀ i ∈ d.ingredients, i.type ≠ c) →
      d.ingredients.filter (fun i => i.type == c) = []) ∧
    (∀ i : Ingredient, i.type ∉ types → ∀ g ∈ d.getMarkupGroups types, i ∉ g) := by
  have hlen : ¬ types.length = 0 := by
    intro h0
    exact h (List.length_eq_zero.1 h0)
  have heq : d.getMarkupGroups types
      = types.map (fun c => d.ingredients.filter (fun i => i.type == c)) := by
    simp [Dish.getMarkupGroups, Dish.getMarkupTypes, Dish.getMarkupState, hlen]
  refine ⟨heq, by rw [heq, List.length_map], ?_, ?_⟩
  · intro c _ hc
    exact List.filter_eq_nil_iff.2 (fun i hi => by simpa using hc i hi)
  · intro i hi g hg hig
    rw [heq] at hg
    obtain ⟨c, hc, rfl⟩ := List.mem_map.1 hg
    have : i.type = c := by simpa using (List.mem_filter.1 hig).2
    exact hi (this ▸ hc)

/-- Instance of C15: the order used by `render()` on a small burger with one
"приправа". -/
theorem explicit_groups_witness :
    (Hamburger.addAdditives (SmallHamburger "сыр") "приправа").getMarkupGroups
        ["Основа", "Начинка", "Добавка"]
      = [[smallBase], [cheese], [seasoning]] ∧
    (SmallHamburger "сыр").getMarkupGroups ["Основа", "Начинка", "Добавка"]
      = [[smallBase], [cheese], []] :=
  ⟨(explicit_groups (Hamburger.addAdditives (SmallHamburger "сыр") "приправа")
      ["Основа", "Начинка", "Добавка"] (by decide)).1,
   (explicit_groups (SmallHamburger "сыр") ["Основа", "Начинка", "Добавка"] (by decide)).1⟩

/-- C18, as amended: with at least one type passed `getMarkup` leaves the dish as it is;
with none it sorts the dish: name, price and calories are the same, the ingredient list
is a permutation of the one before (same elements and quantities), namely the list
sorted by type. -/
theorem getMarkup_state (d : Dish) (types : List String) :
    (types ≠ [] → d.getMarkupState types = d) ∧
    d.getMarkupState [] = d.sort ∧
    (d.getMarkupState []).name = d.name ∧
    (d.getMarkupState []).price = d.price ∧
    (d.getMarkupState []).calories = d.calories ∧
    (d.getMarkupState []).ingredients.Perm d.ingredients := by
  refine ⟨?_, rfl, rfl, rfl, rfl, arraySort_perm _⟩
  intro h
  have hlen : ¬ types.length = 0 := fun h0 => h (List.length_eq_zero.1 h0)
  simp [Dish.getMarkupState, hlen]

/-- Instance of the amended C18 with the order used by `render()`. -/
theorem getMarkup_state_witness :
    (Hamburger.addAdditives (SmallHamburger "сыр") "приправа").getMarkupState
        ["Основа", "Начинка", "Добавка"]
      = Hamburger.addAdditives (SmallHamburger "сыр") "приправа" :=
  (getMarkup_state (Hamburger.addAdditives (SmallHamburger "сыр") "приправа")
    ["Основа", "Начинка", "Добавка"]).1 (by decide)

/-- C18 as stated fails: on a small burger with one "приправа", `getMarkup()` with no
type moves the additive to the front of the ingredient list. -/
theorem getMarkup_reorders :
    (Hamburger.addAdditives (SmallHamburger "сыр") "приправа").ingredients
      = [cheese, smallBase, seasoning] ∧
    ((Hamburger.addAdditives (SmallHamburger "сыр") "приправа").getMarkupState []).ingredients
      = [seasoning, cheese, smallBase] ∧
    (Hamburger.addAdditives (SmallHamburger "сыр") "приправа").getMarkupState []
      ≠ Hamburger.addAdditives (SmallHamburger "сыр") "приправа" := by
  decide

/-- C19, as amended: on a freshly constructed sized hamburger `getMarkup()` with no
type derives the order `["Начинка", "Основа"]`: the filling group comes first and the
base group second, since "Начинка" is smaller than "Основа". -/
theorem default_group_order (k : String) :
    (SmallHamburger k).getMarkupTypes [] = ["Начинка", "Основа"] ∧
    (SmallHamburger k).getMarkupGroups [] = [[catalogFilling k], [smallBase]] ∧
    (BigHamburger k).getMarkupTypes [] = ["Начинка", "Основа"] ∧
    (BigHamburger k).getMarkupGroups [] = [[catalogFilling k], [bigBase]] ∧
    jsLt "Начинка" "Основа" = true := by
  rw [smallHamburger_eq, bigHamburger_eq]
  unfold catalogFilling
  split_ifs <;> decide

/-- C19 as stated fails: on the default small burger the derived order is not base
first. -/
theorem default_group_order_not_base_first :
    (SmallHamburger "сыр").getMarkupTypes [] ≠ ["Основа", "Начинка"] ∧
    (SmallHamburger "сыр").getMarkupGroups [] ≠ [[smallBase], [cheese]] := by
  decide

/-! ## Ingredients with another name are left alone -/

theorem filter_name_replace (pre post : List Ingredient) (y z : Ingredient) (n : String)
    (hy : y.name = n) (hz : z.name = n) :
    (pre ++ z :: post).filter (fun i => i.name != n)
      = (pre ++ y :: post).filter (fun i => i.name != n) := by
  simp [List.filter_append, List.filter_cons, hy, hz]

theorem filter_name_drop (pre post : List Ingredient) (y : Ingredient) (n : String)
    (hy : y.name = n) :
    (pre ++ post).filter (fun i => i.name != n)
      = (pre ++ y :: post).filter (fun i => i.name != n) := by
  simp [List.filter_append, List.filter_cons, hy]

theorem addIngredient_filter_name (d : Dish) (x : Ingredient) :
    (d.addIngredient x).ingredients.filter (fun i => i.name != x.name)
      = d.ingredients.filter (fun i => i.name != x.name) := by
  rcases name_cases d.ingredients x.name with h0 | ⟨pre, y, post, hl, hy, hpre⟩
  · rw [addIngredient_absent d x h0]
    simp [recalc, List.filter_append]
  · rw [addIngredient_present d x y pre post hl hy hpre, hl]
    exact filter_name_replace pre post y y.add x.name hy (by rw [add_name, hy])

theorem removeIngredient_filter_name (d : Dish) (n : String) :
    (d.removeIngredient n).ingredients.filter (fun i => i.name != n)
      = d.ingredients.filter (fun i => i.name != n) := by
  rcases name_cases d.ingredients n with h0 | ⟨pre, y, post, hl, hy, hpre⟩
  · rw [removeIngredient_absent d n h0]
  · rw [removeIngredient_present d n y pre post hl hy hpre, hl]
    exact filter_name_drop pre post y n hy

theorem reduceIngredient_filter_name (d : Dish) (n : String) :
    (d.reduceIngredient n).ingredients.filter (fun i => i.name != n)
      = d.ingredients.filter (fun i => i.name != n) := by
  rcases name_cases d.ingredients n with h0 | ⟨pre, y, post, hl, hy, hpre⟩
  · rw [reduceIngredient_absent d n h0]
  · rw [reduceIngredient_present d n y pre post hl hy hpre, hl]
    exact filter_name_replace pre post y y.reduce n hy (by rw [reduce_name, hy])

theorem call_filter_name (h : Dish) (c : AdditiveCall) (hc : IsAdditiveName c.additive) :
    (c.run h).ingredients.filter (fun i => i.name != c.additive)
      = h.ingredients.filter (fun i => i.name != c.additive) := by
  cases c with
  | addAdditives a =>
    simp only [AdditiveCall.additive] at hc ⊢
    simp only [AdditiveCall.run]
    rw [addAdditives_eq]
    have := addIngredient_filter_name h (catalogAdditive a)
    rw [catalogAdditive_name a hc] at this
    exact this
  | removeAdditives a =>
    simp only [AdditiveCall.additive, AdditiveCall.run]
    unfold Hamburger.removeAdditives
    split
    · exact removeIngredient_filter_name h a
    · rfl
  | reduceAdditives a =>
    simp only [AdditiveCall.additive, AdditiveCall.run]
    unfold Hamburger.reduceAdditives
    split
    · exact reduceIngredient_filter_name h a
    · rfl

theorem calls_filter_name (cs : List AdditiveCall) (h : Dish) (a : String)
    (ha : IsAdditiveName a) (hcs : ∀ c ∈ cs, c.additive = a) :
    (cs.foldl AdditiveCall.run h).ingredients.filter (fun i => i.name != a)
      = h.ingredients.filter (fun i => i.name != a) := by
  induction cs generalizing h with
  | nil => rfl
  | cons c t ih =>
    have hc : c.additive = a := hcs c (by simp)
    simp only [List.foldl_cons]
    rw [ih _ (fun c' hc' => hcs c' (by simp [hc']))]
    have := call_filter_name h c (by rw [hc]; exact ha)
    rw [hc] at this
    exact this

theorem step_filter_name (h : Dish) (el : AdditiveInput) :
    (getAdditivesStep h el).ingredients.filter (fun i => i.name != additiveOf el)
      = h.ingredients.filter (fun i => i.name != additiveOf el) :=
  calls_filter_name _ h _ (additiveOf_isAdditive el) (getAdditivesCalls_additive h el)

/-- In a hamburger, dropping the ingredients named like an additive does not drop any
ingredient of another type. -/
theorem filter_type_of_filter_name (l : List Ingredient) (a : String) (ha : IsAdditiveName a)
    (hg : ∀ i ∈ l, Good i) :
    l.filter (fun i => i.type != "Добавка")
      = (l.filter (fun i => i.name != a)).filter (fun i => i.type != "Добавка") := by
  rw [List.filter_filter]
  refine List.filter_congr ?_
  intro x hx
  by_cases hn : x.name = a
  · have ht : x.type = "Добавка" := by
      rw [good_same_name_type x _ (hg x hx) (good_catalogAdditive a)
        (by rw [catalogAdditive_name a ha]; exact hn), catalogAdditive_type]
    simp [hn, ht]
  · simp [hn]

/-- After a whole run the additive of an element whose additive no other element
stands for has the element's target as quantity. -/
theorem getAdditives_quantity (h : Dish) (el : AdditiveInput) (pre post : List AdditiveInput)
    (hh : HInv h) (ht : 0 ≤ el.value)
    (hne : ∀ e ∈ pre ++ post, additiveOf e ≠ additiveOf el) :
    Hamburger.getAdditivesQuantity (getAdditives h (pre ++ el :: post)) (additiveOf el)
      = el.value := by
  rw [getAdditives_append, getAdditives_cons]
  have h1 := hinv_getAdditives pre h hh
  rw [getAdditives_frame post _ _ (additiveOf_isAdditive el)
    (fun e he => hne e (by simp [he])) (hinv_step _ el h1)]
  exact step_quantity _ el h1 ht

/-! ## Claim on the independence of additives -/

/-- C16: on a reachable sized hamburger the steps performed for one input element
change only the ingredient named like its additive: all ingredients with another name
stay as they are and in the same order, in particular every ingredient that is not an
additive (filling, base), and the quantity of the other additive is the same; with
two elements standing for different additives, the final quantity of the first one's
additive is its own target, whatever the other target and whichever element is
processed first. -/
theorem additives_independent (h : Dish) (el : AdditiveInput) (hr : Reachable h) :
    (getAdditivesStep h el).ingredients.filter (fun i => i.name != additiveOf el)
      = h.ingredients.filter (fun i => i.name != additiveOf el) ∧
    (getAdditivesStep h el).ingredients.filter (fun i => i.type != "Добавка")
      = h.ingredients.filter (fun i => i.type != "Добавка") ∧
    (∀ b : String, IsAdditiveName b → b ≠ additiveOf el →
      Hamburger.getAdditivesQuantity (getAdditivesStep h el) b
        = Hamburger.getAdditivesQuantity h b) ∧
    (∀ other : AdditiveInput, additiveOf other ≠ additiveOf el → 0 ≤ el.value →
      Hamburger.getAdditivesQuantity (getAdditives h [el, other]) (additiveOf el) = el.value ∧
      Hamburger.getAdditivesQuantity (getAdditives h [other, el]) (additiveOf el)
        = el.value) := by
  have hh := hinv_of_reachable h hr
  have ha := additiveOf_isAdditive el
  refine ⟨step_filter_name h el, ?_, ?_, ?_⟩
  · rw [filter_type_of_filter_name _ _ ha (hinv_step h el hh).2.2.1,
      filter_type_of_filter_name _ _ ha hh.2.2.1, step_filter_name]
  · intro b hb hne
    exact step_frame h el b hb (fun e => hne e.symm) hh
  · intro other hne ht
    constructor
    · exact getAdditives_quantity h el [] [other] hh ht (by simpa using hne)
    · exact getAdditives_quantity h el [other] [] hh ht (by simpa using hne)

/-- Instance of C16: a small burger with one "майонез", target three for "приправа". -/
theorem additives_independent_witness :
    (getAdditivesStep (Hamburger.addAdditives (SmallHamburger "сыр") "майонез")
        { id := "seasoning", value := 3 }).ingredients.filter (fun i => i.name != "приправа")
      = [cheese, smallBase, mayonnaise] ∧
    Hamburger.getAdditivesQuantity
        (getAdditivesStep (Hamburger.addAdditives (SmallHamburger "сыр") "майонез")
          { id := "seasoning", value := 3 }) "майонез" = 1 :=
  ⟨(additives_independent (Hamburger.addAdditives (SmallHamburger "сыр") "майонез")
      { id := "seasoning", value := 3 }
      ⟨"сыр", [HamburgerOp.addAdditives "майонез"], Or.inr rfl⟩).1,
   (additives_independent (Hamburger.addAdditives (SmallHamburger "сыр") "майонез")
      { id := "seasoning", value := 3 }
      ⟨"сыр", [HamburgerOp.addAdditives "майонез"], Or.inr rfl⟩).2.2.1 "майонез"
      (Or.inr rfl) (by decide)⟩

/-! ## Reconciliation when the targets are already met -/

theorem absent_of_quantity_zero (h : Dish) (a : String) (ha : IsAdditiveName a) (hh : HInv h)
    (hq : Hamburger.getAdditivesQuantity h a = 0) : ∀ z ∈ h.ingredients, z.name ≠ a := by
  rw [getAdditivesQuantity_eq h a ha hh] at hq
  rcases name_cases h.ingredients a with h0 | ⟨pre, y, post, hl, hy, hpre⟩
  · exact h0
  · exfalso
    have hy1 := (hh.2.2.1 y (by simp [hl])).2.1
    rw [hl, quantityOf_split pre y post a hy hpre] at hq
    simp only [Option.getD_some] at hq
    omega

theorem calls_of_met (h : Dish) (el : AdditiveInput)
    (hq : Hamburger.getAdditivesQuantity h (additiveOf el) = el.value) :
    (el.value ≠ 0 → getAdditivesCalls h el = []) ∧
    (el.value = 0 →
      getAdditivesCalls h el = [AdditiveCall.removeAdditives (additiveOf el)]) := by
  constructor
  · intro h0
    unfold getAdditivesCalls
    simp only [hq]
    rw [if_neg h0, if_neg (by omega), if_neg (by omega)]
  · intro h0
    unfold getAdditivesCalls
    simp only
    rw [if_pos h0]

theorem step_of_met (h : Dish) (el : AdditiveInput) (hh : HInv h)
    (hq : Hamburger.getAdditivesQuantity h (additiveOf el) = el.value) :
    getAdditivesStep h el = h := by
  unfold getAdditivesStep
  by_cases h0 : el.value = 0
  · rw [(calls_of_met h el hq).2 h0]
    simp only [List.foldl_cons, List.foldl_nil, AdditiveCall.run]
    exact removeAdditives_absent h _
      (absent_of_quantity_zero h _ (additiveOf_isAdditive el) hh (by rw [hq, h0]))
  · rw [(calls_of_met h el hq).1 h0]
    rfl

theorem getAdditives_of_met (els : List AdditiveInput) (h : Dish) (hh : HInv h)
    (hq : ∀ el ∈ els, Hamburger.getAdditivesQuantity h (additiveOf el) = el.value) :
    getAdditives h els = h := by
  induction els with
  | nil => rfl
  | cons e t ih =>
    rw [getAdditives_cons, step_of_met h e hh (hq e (by simp))]
    exact ih (fun el hel => hq el (by simp [hel]))

theorem split_of_nodup (els : List AdditiveInput) (el : AdditiveInput) (hel : el ∈ els)
    (hnd : (els.map additiveOf).Nodup) :
    ∃ pre post, els = pre ++ el :: post ∧ ∀ e ∈ pre ++ post, additiveOf e ≠ additiveOf el := by
  obtain ⟨pre, post, rfl⟩ := List.append_of_mem hel
  refine ⟨pre, post, rfl, ?_⟩
  rw [List.map_append, List.map_cons] at hnd
  obtain ⟨_, h2, h3⟩ := List.nodup_append.1 hnd
  intro e he hee
  rcases List.mem_append.1 he with he | he
  · exact h3 (List.mem_map.2 ⟨e, he, hee⟩) (by simp)
  · exact (List.nodup_cons.1 h2).1 (List.mem_map.2 ⟨e, he, hee⟩)

/-- C17, as amended: on a reachable sized hamburger, when every element's target equals
the current quantity of its additive, one run of `getAdditives` leaves the dish as it
is; for a target that is not zero no call is issued, for a target zero (additive
absent) the one call `removeAdditives` is issued and changes nothing. With one element
per additive and non-negative targets, a second run with the same targets gives the
state the first run gave. -/
theorem reconciliation_fixpoint (h : Dish) (els : List AdditiveInput) (hr : Reachable h) :
    ((∀ el ∈ els, Hamburger.getAdditivesQuantity h (additiveOf el) = el.value) →
      getAdditives h els = h ∧
      (∀ el ∈ els, el.value ≠ 0 → getAdditivesCalls h el = []) ∧
      (∀ el ∈ els, el.value = 0 →
        getAdditivesCalls h el = [AdditiveCall.removeAdditives (additiveOf el)] ∧
        Hamburger.removeAdditives h (additiveOf el) = h)) ∧
    ((els.map additiveOf).Nodup → (∀ el ∈ els, 0 ≤ el.value) →
      getAdditives (getAdditives h els) els = getAdditives h els) := by
  have hh := hinv_of_reachable h hr
  constructor
  · intro hq
    refine ⟨getAdditives_of_met els h hh hq, ?_, ?_⟩
    · intro el hel h0
      exact (calls_of_met h el (hq el hel)).1 h0
    · intro el hel h0
      refine ⟨(calls_of_met h el (hq el hel)).2 h0, ?_⟩
      exact removeAdditives_absent h _
        (absent_of_quantity_zero h _ (additiveOf_isAdditive el) hh (by rw [hq el hel, h0]))
  · intro hnd hpos
    refine getAdditives_of_met els _ (hinv_getAdditives els h hh) ?_
    intro el hel
    obtain ⟨pre, post, hsplit, hne⟩ := split_of_nodup els el hel hnd
    have := getAdditives_quantity h el pre post hh (hpos el hel) hne
    rw [← hsplit] at this
    exact this

/-- Instance of the amended C17: a small burger with two "приправа" and no "майонез",
targets two and zero. -/
theorem reconciliation_fixpoint_witness :
    getAdditives
        (Hamburger.addAdditives (Hamburger.addAdditives (SmallHamburger "сыр") "приправа")
          "приправа")
        [{ id := "seasoning", value := 2 }, { id := "mayo", value := 0 }]
      = Hamburger.addAdditives (Hamburger.addAdditives (SmallHamburger "сыр") "приправа")
          "приправа" ∧
    getAdditives
        (getAdditives (SmallHamburger "сыр")
          [{ id := "seasoning", value := 2 }, { id := "mayo", value := 1 }])
        [{ id := "seasoning", value := 2 }, { id := "mayo", value := 1 }]
      = getAdditives (SmallHamburger "сыр")
          [{ id := "seasoning", value := 2 }, { id := "mayo", value := 1 }] :=
  ⟨((reconciliation_fixpoint
      (Hamburger.addAdditives (Hamburger.addAdditives (SmallHamburger "сыр") "приправа")
        "приправа")
      [{ id := "seasoning", value := 2 }, { id := "mayo", value := 0 }]
      ⟨"сыр", [HamburgerOp.addAdditives "приправа", HamburgerOp.addAdditives "приправа"],
        Or.inr rfl⟩).1 (by decide)).1,
   (reconciliation_fixpoint (SmallHamburger "сыр")
      [{ id := "seasoning", value := 2 }, { id := "mayo", value := 1 }]
      ⟨"сыр", [], Or.inr rfl⟩).2 (by decide) (by decide)⟩

/-- C17 as stated fails: on the default small burger, where "приправа" is absent and
the target is zero, the run does issue a `removeAdditives` call. -/
theorem reconciliation_calls_remove_at_zero :
    Hamburger.getAdditivesQuantity (SmallHamburger "сыр") "приправа" = 0 ∧
    getAdditivesCalls (SmallHamburger "сыр") { id := "seasoning", value := 0 }
      = [AdditiveCall.removeAdditives "приправа"] ∧
    getAdditivesCalls (SmallHamburger "сыр") { id := "seasoning", value := 0 } ≠ [] := by
  decide

/-! ## Claim on the frame of `changeStuffing` -/

theorem changeStuffing_ingredients (h : Dish) (k : String) (hh : HInv h) :
    Hamburger.changeStuffing h k
      = recalc h.name (h.ingredients.filter (fun z => z.type != "Начинка") ++ [catalogFilling k]) := by
  obtain ⟨pre, f, post, hl, hft, hcount, _, _, heq⟩ := changeStuffing_eq h k hh
  have hno : ∀ z ∈ pre ++ post, z.type ≠ "Начинка" := (fillingCount_eq_zero _).1 hcount
  have hfil : h.ingredients.filter (fun z => z.type != "Начинка") = pre ++ post := by
    rw [hl, List.filter_append, List.filter_cons]
    have h1 : pre.filter (fun z => z.type != "Начинка") = pre :=
      List.filter_eq_self.2 (fun z hz => by simpa using hno z (by simp [hz]))
    have h2 : post.filter (fun z => z.type != "Начинка") = post :=
      List.filter_eq_self.2 (fun z hz => by simpa using hno z (by simp [hz]))
    simp [h1, h2, hft]
  rw [heq, hfil]

theorem changeStuffing_no_filling (d : Dish) (k : String)
    (h0 : ∀ z ∈ d.ingredients, z.type ≠ "Начинка") : Hamburger.changeStuffing d k = d := by
  have hf : findIndex (fun el : Ingredient => el.type == "Начинка") d.ingredients = none :=
    (findIndex_eq_none _ _).2 (fun y hy => by simpa using h0 y hy)
  simp [Hamburger.changeStuffing, hf]

/-- C20: on a reachable sized hamburger `changeStuffing(k)` yields the ingredients that
are not fillings, as they were and in the same order, followed by the catalog filling
of `k`; so base and additives are unchanged and only the filling moves to the end;
applying it twice gives the same dish as applying it once; on any dish without an
ingredient of type "Начинка" it changes nothing. -/
theorem changeStuffing_frame (h : Dish) (k : String) (hr : Reachable h) :
    (Hamburger.changeStuffing h k).ingredients
      = h.ingredients.filter (fun z => z.type != "Начинка") ++ [catalogFilling k] ∧
    (Hamburger.changeStuffing h k).ingredients.filter (fun z => z.type != "Начинка")
      = h.ingredients.filter (fun z => z.type != "Начинка") ∧
    Hamburger.changeStuffing (Hamburger.changeStuffing h k) k = Hamburger.changeStuffing h k ∧
    (∀ d : Dish, (∀ z ∈ d.ingredients, z.type ≠ "Начинка") →
      Hamburger.changeStuffing d k = d) := by
  have hh := hinv_of_reachable h hr
  have heq := changeStuffing_ingredients h k hh
  have hfil : (h.ingredients.filter (fun z => z.type != "Начинка") ++ [catalogFilling k]).filter
      (fun z => z.type != "Начинка") = h.ingredients.filter (fun z => z.type != "Начинка") := by
    rw [List.filter_append, List.filter_filter]
    simp [catalogFilling_type]
  refine ⟨by rw [heq]; rfl, ?_, ?_, fun d h0 => changeStuffing_no_filling d k h0⟩
  · rw [heq]
    exact hfil
  · rw [changeStuffing_ingredients _ k (hinv_changeStuffing h k hh), heq]
    simp only [recalc]
    rw [hfil]

/-- Instance of C20: a small burger with filling "картофель" and one "майонез", changed
to "салат". -/
theorem changeStuffing_frame_witness :
    (Hamburger.changeStuffing
        (Hamburger.addAdditives (SmallHamburger "картофель") "майонез") "салат").ingredients
      = [smallBase, mayonnaise, salad] ∧
    Hamburger.changeStuffing
        (Hamburger.changeStuffing
          (Hamburger.addAdditives (SmallHamburger "картофель") "майонез") "салат") "салат"
      = Hamburger.changeStuffing
          (Hamburger.addAdditives (SmallHamburger "картофель") "майонез") "салат" :=
  ⟨(changeStuffing_frame (Hamburger.addAdditives (SmallHamburger "картофель") "майонез")
      "салат" ⟨"картофель", [HamburgerOp.addAdditives "майонез"], Or.inr rfl⟩).1,
   (changeStuffing_frame (Hamburger.addAdditives (SmallHamburger "картофель") "майонез")
      "салат" ⟨"картофель", [HamburgerOp.addAdditives "майонез"], Or.inr rfl⟩).2.2.1⟩

/-! ## Totals of a dish in the object-level model -/

theorem toDouble_of_le (n : Int) (h : n.natAbs ≤ 2 ^ 53) : toDouble n = n := by
  unfold toDouble
  rw [if_pos h]

theorem obj_foldl_price (l : List Ingredient) (acc : Int)
    (h : Obj.exactPrices acc l = true) :
    l.foldl (fun totalPrice i => jsAdd totalPrice (Obj.calcTotalPrice i)) acc
      = acc + sumPrice l := by
  induction l generalizing acc with
  | nil => simp [sumPrice]
  | cons x t ih =>
    simp only [Obj.exactPrices, Bool.and_eq_true, decide_eq_true_eq] at h
    obtain ⟨⟨h1, h2⟩, h3⟩ := h
    have hm : Obj.calcTotalPrice x = x.basePrice * x.quantity := toDouble_of_le _ h1
    have ha : jsAdd acc (Obj.calcTotalPrice x) = acc + x.basePrice * x.quantity := by
      rw [hm]
      exact toDouble_of_le _ h2
    rw [List.foldl_cons, ha, ih _ h3, sumPrice_cons]
    ring

theorem obj_foldl_calories (l : List Ingredient) (acc : Int)
    (h : Obj.exactCalories acc l = true) :
    l.foldl (fun totalCalories i => jsAdd totalCalories (Obj.calcTotalCalories i)) acc
      = acc + sumCalories l := by
  induction l generalizing acc with
  | nil => simp [sumCalories]
  | cons x t ih =>
    simp only [Obj.exactCalories, Bool.and_eq_true, decide_eq_true_eq] at h
    obtain ⟨⟨h1, h2⟩, h3⟩ := h
    have hm : Obj.calcTotalCalories x = x.baseCalories * x.quantity := toDouble_of_le _ h1
    have ha : jsAdd acc (Obj.calcTotalCalories x) = acc + x.baseCalories * x.quantity := by
      rw [hm]
      exact toDouble_of_le _ h2
    rw [List.foldl_cons, ha, ih _ h3, sumCalories_cons]
    ring

/-- After `calcPrice` and `calcCalories` the stored totals fit the memory they were
computed in. -/
theorem obj_consistent_calc (s : Obj.Store) (d : Obj.Dish) :
    Obj.Consistent (s, Obj.Dish.calcCalories s (Obj.Dish.calcPrice s d)) := by
  simp [Obj.Consistent, Obj.contents, Obj.Dish.calcCalories, Obj.Dish.calcPrice,
    List.foldl_map]

theorem obj_consistent_addIngredient (st : Obj.Store × Obj.Dish) (x : Nat)
    (h : Obj.Consistent st) : Obj.Consistent (Obj.Dish.addIngredient st.1 st.2 x) := by
  unfold Obj.Dish.addIngredient
  split
  · exact obj_consistent_calc _ _
  · split
    · exact obj_consistent_calc _ _
    · exact h

theorem obj_consistent_removeIngredient (st : Obj.Store × Obj.Dish) (n : String)
    (h : Obj.Consistent st) : Obj.Consistent (Obj.Dish.removeIngredient st.1 st.2 n) := by
  unfold Obj.Dish.removeIngredient
  split
  · exact obj_consistent_calc _ _
  · exact h

theorem obj_consistent_reduceIngredient (st : Obj.Store × Obj.Dish) (n : String)
    (h : Obj.Consistent st) : Obj.Consistent (Obj.Dish.reduceIngredient st.1 st.2 n) := by
  unfold Obj.Dish.reduceIngredient
  split
  · split
    · exact obj_consistent_calc _ _
    · exact h
  · exact h

theorem obj_consistent_run (st : Obj.Store × Obj.Dish) (op : Obj.Op)
    (h : Obj.Consistent st) : Obj.Consistent (op.run st) := by
  cases op with
  | addIngredient x => exact obj_consistent_addIngredient st x h
  | removeIngredient n => exact obj_consistent_removeIngredient st n h
  | reduceIngredient n => exact obj_consistent_reduceIngredient st n h

theorem obj_consistent_foldl_run (ops : List Obj.Op) (st : Obj.Store × Obj.Dish)
    (h : Obj.Consistent st) : Obj.Consistent (ops.foldl Obj.Op.run st) := by
  induction ops generalizing st with
  | nil => exact h
  | cons op t ih => exact ih _ (obj_consistent_run st op h)

theorem obj_consistent_foldl_add (l : List Nat) (st : Obj.Store × Obj.Dish)
    (h : Obj.Consistent st) :
    Obj.Consistent
      (l.foldl (fun st ingredient => Obj.Dish.addIngredient st.1 st.2 ingredient) st) := by
  induction l generalizing st with
  | nil => exact h
  | cons x t ih => exact ih _ (obj_consistent_addIngredient st x h)

theorem obj_consistent_new (s : Obj.Store) (name : String) (init : List Nat) :
    Obj.Consistent (Obj.Dish.new s name init) :=
  obj_consistent_foldl_add init _ (by simp [Obj.Consistent, Obj.contents, Obj.Dish.empty])

/-- C1, as amended: for a dish built by the constructor from any list of ingredient
objects in any memory, and any sequence of `addIngredient` / `removeIngredient` /
`reduceIngredient` calls on that dish, nothing else changing its ingredient objects
in between: after every prefix of the sequence, when the line totals and partial sums
of the contained ingredients do not exceed `2 ^ 53` in magnitude, `price` is the sum of
`basePrice * quantity` and `calories` the sum of `baseCalories * quantity` over the
contained ingredients. -/
theorem object_totals_invariant (s : Obj.Store) (name : String) (init : List Nat)
    (ops : List Obj.Op) (n : Nat)
    (hp : Obj.exactPrices 0
      (Obj.contents ((ops.take n).foldl Obj.Op.run (Obj.Dish.new s name init))) = true)
    (hc : Obj.exactCalories 0
      (Obj.contents ((ops.take n).foldl Obj.Op.run (Obj.Dish.new s name init))) = true) :
    ((ops.take n).foldl Obj.Op.run (Obj.Dish.new s name init)).2.price
      = ((Obj.contents ((ops.take n).foldl Obj.Op.run (Obj.Dish.new s name init))).map
          (fun i => i.basePrice * i.quantity)).sum ∧
    ((ops.take n).foldl Obj.Op.run (Obj.Dish.new s name init)).2.calories
      = ((Obj.contents ((ops.take n).foldl Obj.Op.run (Obj.Dish.new s name init))).map
          (fun i => i.baseCalories * i.quantity)).sum := by
  have h := obj_consistent_foldl_run (ops.take n) _ (obj_consistent_new s name init)
  obtain ⟨h1, h2⟩ := h
  constructor
  · rw [h1, obj_foldl_price _ 0 hp, zero_add]
    rfl
  · rw [h2, obj_foldl_calories _ 0 hc, zero_add]
    rfl

/-- Instance of the amended C1: a dish built from the objects at addresses 0, 1, 1,
then `addIngredient` of object 0, `reduceIngredient("b")` and
`removeIngredient("zzz")`. -/
theorem object_totals_invariant_witness :
    ((([Obj.Op.addIngredient 0, Obj.Op.reduceIngredient "b",
        Obj.Op.removeIngredient "zzz"].take 3).foldl Obj.Op.run
      (Obj.Dish.new Obj.sampleStore "d" [0, 1, 1])).2.price = 13) ∧
    ((([Obj.Op.addIngredient 0, Obj.Op.reduceIngredient "b",
        Obj.Op.removeIngredient "zzz"].take 3).foldl Obj.Op.run
      (Obj.Dish.new Obj.sampleStore "d" [0, 1, 1])).2.calories = 8) :=
  object_totals_invariant Obj.sampleStore "d" [0, 1, 1]
    [Obj.Op.addIngredient 0, Obj.Op.reduceIngredient "b", Obj.Op.removeIngredient "zzz"] 3
    (by decide) (by decide)

/-- C1 as stated fails. With one `Ingredient` object `x` (price 5) held by two dishes,
after `d1 = new Dish("d1", x)`, `d2 = new Dish("d2", x)`, `d2.addIngredient(x)` and
`d1.removeIngredient("nope")` the object has quantity 2, so the sum over `d1` is 10,
while `d1.price` is still 5. And a dish built from prices `2 ^ 53` and `1` has price
`2 ^ 53`, the sum rounded to a double, not `2 ^ 53 + 1`. -/
theorem totals_not_always_sum :
    Obj.sharedScenario.2.price = 5 ∧
    ((Obj.contents Obj.sharedScenario).map (fun i => i.basePrice * i.quantity)).sum = 10 ∧
    (Obj.Dish.new Obj.largeStore "d" [0, 1]).2.price = 9007199254740992 ∧
    ((Obj.contents (Obj.Dish.new Obj.largeStore "d" [0, 1])).map
      (fun i => i.basePrice * i.quantity)).sum = 9007199254740993 := by
  decide

end Burger
